import Mathlib

/-!
# Verification of the lsst/ap chunk manager core

Shallow embedding of the chunk-manager core of the `lsst/ap` association
pipeline: the Thomas Wang 64-bit hash, the `Bitset` allocator core
(`detail::set` / `detail::reset`), the bounded `Fifo` ring buffer, the
`HashedSet` open-chaining fixed-capacity set, the `BlockAllocator`, the
chunk `SubManager` (`createOrRegisterInterest`, `checkForOwnership`,
`relinquishOwnership`) and the `ChunkManagerSingleImpl` facade
(`startVisit`, `endVisit`).

Machine integers are modelled as `Nat` / `Int` with explicit reduction
modulo `2 ^ w` where C++ unsigned overflow semantics matter.  Fallible
operations return `Except` paired with the post-state (C++ exceptions do
not roll back memory, so the mutated state survives a throw).  Code of the
repository that is only declared, not defined, in the sources at hand
(the entry types of `ChunkManagerImpl.h` and the chunk handle operations of
`Chunk.cc`) is modelled from the specification and marked as such.
-/

namespace LsstAp

/-- `2 ^ 64`, the modulus of C++ `uint64_t` arithmetic. -/
def U64 : Nat := 2 ^ 64

/-- `2 ^ 32`, the modulus of C++ `uint32_t` arithmetic. -/
def U32 : Nat := 2 ^ 32

/-- `hash(uint64_t)` from `ChunkManagerImpl.cc` lines 45-53: Thomas Wang's
64-bit-to-32-bit mixing function.  `key` is a `uint64_t` (a `Nat` below
`2 ^ 64`); `~` is exclusive-or with all ones, `<<`/`>>` are logical shifts,
`+`/`*` wrap modulo `2 ^ 64`, and the final `static_cast<uint32_t>` keeps
the low 32 bits. -/
def hashU64 (key : Nat) : Nat :=
  let k1 := ((key ^^^ (U64 - 1)) + ((key <<< 18) % U64)) % U64
  let k2 := k1 ^^^ (k1 >>> 31)
  let k3 := (k2 * 21) % U64
  let k4 := k3 ^^^ (k3 >>> 11)
  let k5 := (k4 + ((k4 <<< 6) % U64)) % U64
  let k6 := k5 ^^^ (k5 >>> 22)
  k6 % U32

/-- `hash(int64_t)` from `ChunkManagerImpl.cc` line 56: the signed key is
`static_cast` to `uint64_t` (two's complement, i.e. reduction mod `2 ^ 64`)
and mixed with `hashU64`. -/
def hashI64 (key : Int) : Nat :=
  hashU64 (key % (U64 : Int)).toNat

/-- The Wang mix exactly as the specification's pseudocode states it
(spec section 6): six steps of 64-bit modular arithmetic
(`~k` is `2 ^ 64 - 1 - k`, shifts are multiplication/division by powers of
two, `^` is bitwise exclusive or), returning the low 32 bits. -/
def wangMixSpec (k : Nat) : Nat :=
  let s1 := ((U64 - 1 - k) + k * 2 ^ 18) % U64
  let s2 := s1 ^^^ (s1 / 2 ^ 31)
  let s3 := (s2 * 21) % U64
  let s4 := s3 ^^^ (s3 / 2 ^ 11)
  let s5 := (s4 + s4 * 2 ^ 6) % U64
  let s6 := s5 ^^^ (s5 / 2 ^ 22)
  s6 % U32

/-- Exclusive-or with the all-ones word is subtraction from the all-ones
word (bitwise complement within `n` bits). -/
theorem xor_all_ones {n k : Nat} (h : k < 2 ^ n) :
    k ^^^ (2 ^ n - 1) = 2 ^ n - 1 - k := by
  induction n generalizing k with
  | zero =>
    interval_cases k
    rfl
  | succ n ih =>
    have h2 : k / 2 < 2 ^ n := by
      have : k < 2 ^ n * 2 := by rw [pow_succ] at h; omega
      omega
    have hrec := ih h2
    have hm : (2 : Nat) ^ (n + 1) - 1 = Nat.bit true (2 ^ n - 1) := by
      have : (1 : Nat) ≤ 2 ^ n := Nat.one_le_two_pow
      rw [Nat.bit_val, pow_succ]
      simp; omega
    -- xor distributes over the binary digit decomposition
    have hx : k ^^^ (2 ^ (n + 1) - 1)
        = Nat.bit (!k.bodd) (k / 2 ^^^ (2 ^ n - 1)) := by
      conv_lhs => rw [← Nat.bit_decomp k]
      rw [hm, Nat.xor_bit, Nat.div2_val]
      cases k.bodd <;> rfl
    rw [hx, hrec, Nat.bit_val, hm, Nat.bit_val]
    have hkdm : k = 2 * (k / 2) + k.bodd.toNat := by
      cases hbk : k.bodd
      · have : k % 2 = 0 := by
          have := Nat.bodd_add_div2 k
          rw [hbk] at this; simp [Nat.div2_val] at this; omega
        simp; omega
      · have : k % 2 = 1 := by
          have := Nat.bodd_add_div2 k
          rw [hbk] at this; simp [Nat.div2_val] at this; omega
        simp; omega
    have hkn : k / 2 ≤ 2 ^ n - 1 := by omega
    cases hbk : k.bodd <;> rw [hbk] at hkdm <;> simp at hkdm ⊢ <;> omega

/-- C9: for every unsigned 64-bit key, the implemented hash function
computes the six-step Wang mix `k = (~k) + (k << 18); k ^= k >> 31;
k *= 21; k ^= k >> 11; k += k << 6; k ^= k >> 22` in 64-bit modular
arithmetic and returns the low 32 bits, bit-exactly matching the
specification's pseudocode. -/
theorem hashU64_eq_wangMixSpec (key : Nat) (h : key < U64) :
    hashU64 key = wangMixSpec key := by
  unfold hashU64 wangMixSpec
  have hx : key ^^^ (U64 - 1) = U64 - 1 - key := xor_all_ones h
  simp only [hx, Nat.shiftLeft_eq, Nat.shiftRight_eq_div_pow,
    Nat.add_mod_mod, Nat.mod_add_mod]

/-- Witness for C9 at the concrete key `123456789`. -/
theorem hashU64_eq_wangMixSpec_witness :
    (123456789 : Nat) < U64 ∧ hashU64 123456789 = wangMixSpec 123456789 :=
  ⟨by decide, hashU64_eq_wangMixSpec 123456789 (by decide)⟩

/-- Masking with an all-ones mask of `k` bits is reduction modulo `2 ^ k`
(the `x & (NumEntries - 1)` idiom of the power-of-two ring buffer and hash
table). -/
theorem and_mask_eq_mod (x k : Nat) : x &&& (2 ^ k - 1) = x % 2 ^ k := by
  apply Nat.eq_of_testBit_eq
  intro i
  simp [Nat.testBit_and, Nat.testBit_mod_two_pow, Nat.testBit_two_pow_sub_one,
    Bool.and_comm]

/-- Error kinds surfaced by the embedded operations (the exception classes
raised via `LSST_AP_THROW` and `throw std::bad_alloc`). -/
inductive Err where
  /-- `lsst::mwi::exceptions::LengthError` (capacity exhausted). -/
  | lengthError
  /-- `lsst::mwi::exceptions::InvalidParameter`. -/
  | invalidParameter
  /-- `std::bad_alloc`. -/
  | badAlloc
  /-- `lsst::ap::OutOfRange`. -/
  | outOfRange
deriving DecidableEq, Repr

/-- Decidable equality for fallible results, for concrete evaluation. -/
instance exceptDecEq {ε α : Type} [DecidableEq ε] [DecidableEq α] :
    DecidableEq (Except ε α)
  | .ok a, .ok b =>
    if h : a = b then .isTrue (by rw [h]) else .isFalse (by intro he; cases he; exact h rfl)
  | .error a, .error b =>
    if h : a = b then .isTrue (by rw [h]) else .isFalse (by intro he; cases he; exact h rfl)
  | .ok _, .error _ => .isFalse (by intro he; cases he)
  | .error _, .ok _ => .isFalse (by intro he; cases he)

-- ## Fifo (Fifo.h)

/-- The fixed-capacity FIFO ring buffer of `Fifo.h`.  `cap` is the
`NumEntries` template parameter (statically asserted to be a positive power
of two); `buffer`, `size`, `back`, `front` are the four data members.  The
C++ index fields are `int` but never negative, so they are `Nat` here. -/
structure Fifo where
  cap : Nat
  buffer : List Int
  size : Nat
  back : Nat
  front : Nat
deriving DecidableEq, Repr

/-- `Fifo::clear`: empties the FIFO (buffer contents are untouched). -/
def Fifo.clear (f : Fifo) : Fifo :=
  { f with size := 0, back := 0, front := 0 }

/-- `Fifo::Fifo()`: the constructor just calls `clear()`; the buffer
contents start indeterminate, `junk` models the uninitialized array. -/
def Fifo.init (cap : Nat) (junk : List Int) : Fifo :=
  Fifo.clear { cap := cap, buffer := junk, size := 0, back := 0, front := 0 }

/-- `Fifo::empty`. -/
def Fifo.isEmpty (f : Fifo) : Bool := f.size = 0

/-- `Fifo::full`. -/
def Fifo.isFull (f : Fifo) : Bool := f.size = f.cap

/-- `Fifo::enqueue`: throws `LengthError` on a full FIFO, else writes at
`_back` and advances it with the power-of-two mask. -/
def Fifo.enqueue (f : Fifo) (elt : Int) : Except Err Fifo :=
  let sz := f.size
  if sz = f.cap then
    .error .lengthError
  else
    let i := f.back
    .ok { f with buffer := f.buffer.set i elt,
                 back := (i + 1) &&& (f.cap - 1),
                 size := sz + 1 }

/-- `Fifo::dequeue`: throws `LengthError` on an empty FIFO, else reads at
`_front` and advances it with the power-of-two mask. -/
def Fifo.dequeue (f : Fifo) : Except Err (Int × Fifo) :=
  let sz := f.size
  if sz = 0 then
    .error .lengthError
  else
    let i := f.front
    let elt := f.buffer.getD i 0
    .ok (elt, { f with front := (i + 1) &&& (f.cap - 1), size := sz - 1 })

/-- Well-formedness of a `Fifo` state: the representation invariant the C++
object maintains (capacity a positive power of two by the static assert,
buffer of length `cap`, `back` the ring successor of `front` by `size`). -/
structure Fifo.WF (f : Fifo) : Prop where
  pow : ∃ k, f.cap = 2 ^ k
  len : f.buffer.length = f.cap
  size_le : f.size ≤ f.cap
  front_lt : f.front < f.cap
  back_eq : f.back = (f.front + f.size) % f.cap

/-- The abstract queue contents of a `Fifo`, front first. -/
def Fifo.toList (f : Fifo) : List Int :=
  (List.range f.size).map fun k => f.buffer.getD ((f.front + k) % f.cap) 0

theorem Fifo.WF.cap_pos {f : Fifo} (h : f.WF) : 0 < f.cap := by
  obtain ⟨k, hk⟩ := h.pow
  exact hk ▸ Nat.pos_pow_of_pos k (by norm_num)

theorem Fifo.toList_length (f : Fifo) : f.toList.length = f.size := by
  simp [Fifo.toList]

/-- A cleared FIFO is well-formed and empty. -/
theorem Fifo.init_wf (cap : Nat) (junk : List Int) (k : Nat)
    (hcap : cap = 2 ^ k) (hlen : junk.length = cap) :
    (Fifo.init cap junk).WF ∧ (Fifo.init cap junk).toList = [] := by
  have hpos : 0 < cap := hcap ▸ Nat.pos_pow_of_pos k (by norm_num)
  refine ⟨⟨⟨k, hcap⟩, ?_, ?_, ?_, ?_⟩, ?_⟩
  · simpa [Fifo.init, Fifo.clear] using hlen
  · simp [Fifo.init, Fifo.clear]
  · simpa [Fifo.init, Fifo.clear] using hpos
  · simp [Fifo.init, Fifo.clear]
  · simp [Fifo.init, Fifo.clear, Fifo.toList]

/-- `enqueue` on a non-full well-formed FIFO succeeds, preserves
well-formedness, and appends the element to the back of the abstract
queue. -/
theorem Fifo.enqueue_toList {f : Fifo} (hwf : f.WF) (elt : Int)
    (hnf : f.size ≠ f.cap) :
    ∃ f', f.enqueue elt = .ok f' ∧ f'.WF ∧
      f'.toList = f.toList ++ [elt] ∧ f'.cap = f.cap := by
  obtain ⟨k, hk⟩ := hwf.pow
  have hcap : 0 < f.cap := hwf.cap_pos
  have hmask : ∀ x : Nat, x &&& (f.cap - 1) = x % f.cap := by
    intro x; rw [hk]; exact and_mask_eq_mod x k
  have hlen : f.buffer.length = f.cap := hwf.len
  have hbe : f.back = (f.front + f.size) % f.cap := hwf.back_eq
  refine ⟨{ f with
      buffer := f.buffer.set f.back elt,
      back := (f.back + 1) &&& (f.cap - 1),
      size := f.size + 1 }, ?_, ⟨⟨k, hk⟩, ?_, ?_, ?_, ?_⟩, ?_, rfl⟩
  · simp [Fifo.enqueue, hnf]
  · simpa using hlen
  · have := hwf.size_le; simp; omega
  · simpa using hwf.front_lt
  · simp only [hmask, hbe, Nat.mod_add_mod]
    congr 1
  · -- abstract contents: old entries survive, the new element sits at _back
    simp only [Fifo.toList, List.range_succ, List.map_append, List.map_cons,
      List.map_nil]
    congr 1
    · -- positions 0..size-1 read the untouched slots
      apply List.map_congr_left
      intro j hj
      simp only [List.mem_range] at hj
      have hne : (f.front + j) % f.cap ≠ f.back := by
        rw [hbe]
        intro heq
        -- equal residues force j ≡ size [MOD cap], impossible for
        -- 0 ≤ j < size < cap
        have hmod : j % f.cap = f.size % f.cap :=
          Nat.ModEq.add_left_cancel' f.front heq
        have hjlt : j < f.cap := by have := hwf.size_le; omega
        have hslt : f.size < f.cap := by have := hwf.size_le; omega
        rw [Nat.mod_eq_of_lt hjlt, Nat.mod_eq_of_lt hslt] at hmod
        omega
      simp only [List.getD_eq_getElem?_getD]
      rw [List.getElem?_set_ne hne.symm]
    · -- position size reads the slot just written
      have hb : f.back < f.buffer.length := by
        rw [hlen, hbe]; exact Nat.mod_lt _ hcap
      simp only [List.getD_eq_getElem?_getD]
      rw [← hbe, List.getElem?_set_self hb]
      simp

/-- `dequeue` on a nonempty well-formed FIFO succeeds, preserves
well-formedness, and pops the front of the abstract queue. -/
theorem Fifo.dequeue_toList {f : Fifo} (hwf : f.WF) (hne : f.size ≠ 0) :
    ∃ x f', f.dequeue = .ok (x, f') ∧ f'.WF ∧
      f.toList = x :: f'.toList ∧ f'.cap = f.cap ∧ f'.buffer = f.buffer := by
  obtain ⟨k, hk⟩ := hwf.pow
  have hcap : 0 < f.cap := hwf.cap_pos
  have hmask : ∀ x : Nat, x &&& (f.cap - 1) = x % f.cap := by
    intro x; rw [hk]; exact and_mask_eq_mod x k
  refine ⟨f.buffer.getD f.front 0,
    { f with
      front := (f.front + 1) &&& (f.cap - 1),
      size := f.size - 1 },
    ?_, ⟨⟨k, hk⟩, ?_, ?_, ?_, ?_⟩, ?_, rfl, rfl⟩
  · simp [Fifo.dequeue, hne]
  · exact hwf.len
  · have := hwf.size_le; simp; omega
  · simp only [hmask]; exact Nat.mod_lt _ hcap
  · simp only [hmask, hwf.back_eq, Nat.mod_add_mod]
    congr 1; omega
  · -- front element plus shifted remainder
    have hsz : f.size = (f.size - 1) + 1 := by omega
    simp only [Fifo.toList]
    conv_lhs => rw [hsz]
    rw [List.range_succ_eq_map]
    simp only [List.map_cons, List.map_map]
    congr 1
    · simp [Nat.mod_eq_of_lt hwf.front_lt]
    · apply List.map_congr_left
      intro j hj
      simp only [Function.comp_apply, hmask, Nat.mod_add_mod]
      congr 2
      omega

-- ## Bitset allocator core (Bitset.h / the Bitset implementation file)

/-- Structural helper for `popCount`: `fuel ≥ n` makes the halving
recursion structural. -/
def popCountAux : Nat → Nat → Nat
  | 0, _ => 0
  | fuel + 1, n => if n = 0 then 0 else popCountAux fuel (n / 2) + n % 2

/-- Exact population count of a natural number.  This is the semantics of
the `populationCount` helpers: the hardware builtin when
`LSST_AP_HAVE_BUILTIN_POPCOUNT` is set, Freed's binary-magic reduction
otherwise; both compute the number of set bits of the word. -/
def popCount (n : Nat) : Nat := popCountAux n n

theorem popCountAux_zero (fuel : Nat) : popCountAux fuel 0 = 0 := by
  cases fuel <;> simp [popCountAux]

theorem popCountAux_irrel : ∀ fuel fuel' n, n ≤ fuel → n ≤ fuel' →
    popCountAux fuel n = popCountAux fuel' n := by
  intro fuel
  induction fuel with
  | zero =>
    intro fuel' n h _
    have hn : n = 0 := by omega
    subst hn
    rw [popCountAux_zero, popCountAux_zero]
  | succ f ih =>
    intro fuel' n h h'
    rcases Nat.eq_zero_or_pos n with rfl | hn
    · rw [popCountAux_zero, popCountAux_zero]
    · cases fuel' with
      | zero => omega
      | succ f' =>
        simp only [popCountAux]
        rw [if_neg (by omega), if_neg (by omega),
          ih f' (n / 2) (by omega) (by omega)]

/-- The recursion equation of `popCount`. -/
theorem popCount_eq (n : Nat) :
    popCount n = if n = 0 then 0 else popCount (n / 2) + n % 2 := by
  cases n with
  | zero => simp [popCount, popCountAux]
  | succ m =>
    simp only [popCount, popCountAux, Nat.succ_ne_zero, if_false]
    congr 1
    exact popCountAux_irrel m ((m + 1) / 2) ((m + 1) / 2) (by omega) le_rfl

/-- The bit at position `b` of a bit array stored as a list of words of
`2 ^ lg` bits each (`wordForBit` / `maskForBit` of Bitset.h). -/
def bitGet (lg : Nat) (words : List Nat) (b : Nat) : Bool :=
  (words.getD (b >>> lg) 0).testBit (b &&& (2 ^ lg - 1))

/-- The zero-bit positions of word `w` below bit position `m`, ascending. -/
def zeroBitsBelow (w m : Nat) : List Nat :=
  (List.range m).filter (fun j => ! w.testBit j)

/-- The zero-bit positions of the bit array `words` below bit position
`numBits`, in ascending order: the bits `detail::set` is contracted to
allocate from. -/
def zeroPositions (lg : Nat) (words : List Nat) (numBits : Nat) : List Nat :=
  (List.range numBits).filter (fun b => ! bitGet lg words b)

/-- The first (counting) pass of `detail::set`:
`for (i = 0; i < nwords - special && zeroes > 0; ++i)
   zeroes -= BITS_PER_WORD - populationCount(words[i] & WORD_MASK);`
`zeroes` is a C++ `int` and may go negative, hence `Int`.  Returns the
final loop index and the final `zeroes`. -/
def countPassLoop (lg : Nat) (words : List Nat) (bound : Nat) :
    Nat → Int → Nat → Nat × Int
  | i, zeroes, 0 => (i, zeroes)
  | i, zeroes, fuel + 1 =>
    if i < bound ∧ 0 < zeroes then
      let w := words.getD i 0 &&& (2 ^ 2 ^ lg - 1)
      countPassLoop lg words bound (i + 1)
        (zeroes - ((2 ^ lg : Int) - (popCount w : Int))) fuel
    else
      (i, zeroes)

/-- The inner bit loop of the second (filling) pass of `detail::set`:
`for (j = 0; j < BITS_PER_WORD; ++j, mask <<= 1)` over word `w` of word
index `i`, setting zero bits and recording their global indices until
`zeroes` reaches `numBitsToSet`.  Returns the updated word, count and
index list.  `fuel` counts the remaining bit positions (`2 ^ lg - j`),
making the `j < BITS_PER_WORD` loop guard structural. -/
def fillPassWord (lg : Nat) (i : Nat) (numBitsToSet : Nat) :
    Nat → Nat → Nat → List Nat → Nat → Nat × Nat × List Nat
  | _, w, zeroes, idxs, 0 => (w, zeroes, idxs)
  | j, w, zeroes, idxs, fuel + 1 =>
    if w &&& (1 <<< j) = 0 then
      let idxs := idxs ++ [(i <<< lg) + j]
      let w := w ||| (1 <<< j)
      let zeroes := zeroes + 1
      if zeroes = numBitsToSet then
        (w, zeroes, idxs)  -- break: the word is still written back by the caller
      else
        fillPassWord lg i numBitsToSet (j + 1) w zeroes idxs fuel
    else
      fillPassWord lg i numBitsToSet (j + 1) w zeroes idxs fuel

/-- The outer word loop of the second pass of `detail::set`:
`for (i = 0; zeroes < numBitsToSet; ++i)`.  The C++ loop has no bound on
`i`; it relies on the first pass having verified that enough zero bits
exist, which also keeps `i` within the array.  `fuel` (the number of
words) makes the recursion well-founded; it is never exhausted when the
first pass succeeded. -/
def fillPassLoop (lg : Nat) (numBitsToSet : Nat) :
    List Nat → Nat → Nat → List Nat → Nat → List Nat × List Nat
  | words, _, _, idxs, 0 => (words, idxs)
  | words, i, zeroes, idxs, fuel + 1 =>
    if zeroes < numBitsToSet then
      let w := words.getD i 0 &&& (2 ^ 2 ^ lg - 1)
      if w = 2 ^ 2 ^ lg - 1 then
        fillPassLoop lg numBitsToSet words (i + 1) zeroes idxs fuel  -- continue
      else
        let r := fillPassWord lg i numBitsToSet 0 w zeroes idxs (2 ^ lg)
        fillPassLoop lg numBitsToSet (words.set i r.1) (i + 1) r.2.1 r.2.2 fuel
    else
      (words, idxs)

/-- Result of `detail::set`: the boolean return value, the bit array after
the call, the indices written to the output array, and whether the
debug assertions at the head of the function held. -/
structure SetResult where
  ok : Bool
  words : List Nat
  indexes : List Nat
  assertOk : Bool
deriving DecidableEq, Repr

/-- The first (counting) pass of `detail::set`, lines 135-153 of the
Bitset implementation file: the word loop bounded by `nwords - special`,
followed by the masked count of the partial final word.  After the loop,
`zeroes > 0` implies the loop ran to completion, so the loop index `p.1`
equals `nwords - special` and `words[i]` is the final (partial) word. -/
def pass1Zeroes (lg : Nat) (words : List Nat) (numBitsToSet numBits : Nat) :
    Int :=
  let bpw := 2 ^ lg
  let wordMask := 2 ^ bpw - 1
  let special : Nat := if 0 < numBits &&& (bpw - 1) then 1 else 0
  let last := wordMask ^^^ ((1 <<< (numBits &&& (bpw - 1))) - 1)
  let nwords := (numBits + (bpw - 1)) >>> lg
  let p := countPassLoop lg words (nwords - special) 0 (numBitsToSet : Int)
    (nwords - special)
  if 0 < p.2 ∧ special = 1 then
    p.2 - ((bpw : Int) - (popCount ((words.getD p.1 0 &&& wordMask) ||| last) : Int))
  else p.2

/-- `detail::set` of the Bitset implementation file, lines 125-175.
`lg` is `BitTraits<WordT>::BITS_PER_WORD_LOG2` (3, 4, 5 or 6 for the four
instantiated word types; the embedding is parametric).  The two debug
assertions (`numBits > 0`, `numBitsToSet > 0`) are recorded in
`assertOk`; execution continues as in a release (`NDEBUG`) build. -/
def detailSet (lg : Nat) (words : List Nat) (numBitsToSet numBits : Nat) :
    SetResult :=
  let assertOk := decide (0 < numBits) && decide (0 < numBitsToSet)
  if 0 < pass1Zeroes lg words numBitsToSet numBits then
    { ok := false, words := words, indexes := [], assertOk := assertOk }
  else
    let r := fillPassLoop lg numBitsToSet words 0 0 [] words.length
    { ok := true, words := r.1, indexes := r.2, assertOk := assertOk }

/-- One iteration of the `detail::reset` loop: clear bit `j` of the
array (`words[wordForBit(j)] &= ~maskForBit(j)`), recording the
per-index debug assertion. -/
def resetStep (lg numBits : Nat) (acc : List Nat × Bool) (j : Nat) :
    List Nat × Bool :=
  let wi := j >>> lg
  let w := acc.1.getD wi 0
  (acc.1.set wi (w &&& ((2 ^ 2 ^ lg - 1) ^^^ (1 <<< (j &&& (2 ^ lg - 1))))),
   acc.2 && decide (j < numBits))

/-- `detail::reset` of the Bitset implementation file, lines 188-203:
clears the bit at each listed index.  The debug assertion `0 ≤ j < numBits`
per index is recorded; as in a release build, execution continues (an
out-of-range index would be an out-of-bounds write in C++; `List.set`
ignores it here). -/
def detailReset (lg : Nat) (words : List Nat) (indexes : List Nat)
    (numBits : Nat) : List Nat × Bool :=
  indexes.foldl (resetStep lg numBits) (words, decide (0 < numBits))

-- Spec scenario 6, 8-bit word: 5 bits set, the 3 zero bits at positions
-- 2, 6, 7.  Asking for 4 bits fails and leaves the array unchanged;
-- asking for 3 succeeds with ascending indices [2, 6, 7], filling the
-- byte.  (The scenario's literal `0b10111011` is transcribed as the bit
-- pattern with bits 0,1,3,4,5 set that its own "5 set, 3 free" and
-- `out == [2, 6, 7]` describe.)
example : detailSet 3 [0b00111011] 4 8 =
    { ok := false, words := [0b00111011], indexes := [], assertOk := true } := by
  decide
example : detailSet 3 [0b00111011] 3 8 =
    { ok := true, words := [0b11111111], indexes := [2, 6, 7], assertOk := true } := by
  decide
-- Partial final word: 10 bits over two 8-bit words; the 6 out-of-range
-- zero bits of the second word do not count as allocatable.
example : (detailSet 3 [0xff, 0x03] 1 10).ok = false := by decide
example : (detailSet 3 [0xff, 0xfd] 1 10).indexes = [9] := by decide

-- ### Word-level counting lemmas

theorem popCount_div2 (w : Nat) : popCount w = popCount (w / 2) + w % 2 := by
  rcases Nat.eq_zero_or_pos w with rfl | h
  · rw [popCount_eq]
    simp
  · rw [popCount_eq, if_neg (by omega)]

theorem zeroBitsBelow_succ (w m : Nat) :
    zeroBitsBelow w (m + 1)
      = (if w.testBit 0 then [] else [0])
        ++ (zeroBitsBelow (w / 2) m).map Nat.succ := by
  unfold zeroBitsBelow
  rw [List.range_succ_eq_map, List.filter_cons, List.filter_map]
  have hc : (fun j => ! w.testBit j) ∘ Nat.succ = fun j => ! (w / 2).testBit j := by
    funext j
    simp [Function.comp, Nat.testBit_succ]
  rw [hc]
  cases h : w.testBit 0 <;> simp [h]

/-- Every natural below `2 ^ m` has `popCount` plus number of zero bits
below `m` equal to `m` (the first pass of `detail::set` counts zero bits
as `BITS_PER_WORD - populationCount`). -/
theorem popCount_add_zeroBits : ∀ (m w : Nat), w < 2 ^ m →
    popCount w + (zeroBitsBelow w m).length = m := by
  intro m
  induction m with
  | zero =>
    intro w h
    interval_cases w
    rw [popCount_eq]
    simp [zeroBitsBelow]
  | succ m ih =>
    intro w h
    have hw2 : w / 2 < 2 ^ m := by
      have hp : (2 : Nat) ^ (m + 1) = 2 ^ m * 2 := by rw [pow_succ]
      omega
    have hrec := ih (w / 2) hw2
    rw [popCount_div2, zeroBitsBelow_succ]
    have hb : w.testBit 0 = decide (w % 2 = 1) := Nat.testBit_zero w
    cases h0 : w.testBit 0 <;> rw [h0] at hb <;> simp at hb ⊢ <;> omega

theorem popCount_le_of_lt (m w : Nat) (h : w < 2 ^ m) : popCount w ≤ m := by
  have := popCount_add_zeroBits m w h
  omega

/-- Or-ing in the out-of-range mask `last` turns the zero bits at or above
`r` into ones: the zero bits of `w | last` below `bpw` are exactly the
zero bits of `w` below `r` (the first pass's treatment of the partial
final word). -/
theorem zeroBits_or_mask (w r b : Nat) (hr : r ≤ b) :
    zeroBitsBelow (w ||| ((2 ^ b - 1) ^^^ (2 ^ r - 1))) b = zeroBitsBelow w r := by
  have hbit : ∀ j, ((2 ^ b - 1) ^^^ (2 ^ r - 1)).testBit j
      = (decide (j < b) ^^ decide (j < r)) := by
    intro j
    rw [Nat.testBit_xor, Nat.testBit_two_pow_sub_one, Nat.testBit_two_pow_sub_one]
  unfold zeroBitsBelow
  have hsplit : List.range b
      = List.range r ++ List.map (fun x => r + x) (List.range (b - r)) := by
    rw [← List.range_add]
    congr 1
    omega
  rw [hsplit, List.filter_append]
  have h1 : List.filter (fun j => ! (w ||| ((2 ^ b - 1) ^^^ (2 ^ r - 1))).testBit j)
      (List.range r) = List.filter (fun j => ! w.testBit j) (List.range r) := by
    apply List.filter_congr
    intro j hj
    simp only [List.mem_range] at hj
    rw [Nat.testBit_or, hbit]
    have hf : (decide (j < b) ^^ decide (j < r)) = false := by
      have hjb : j < b := by omega
      simp [hj, hjb]
    rw [hf, Bool.or_false]
  have h2 : List.filter (fun j => ! (w ||| ((2 ^ b - 1) ^^^ (2 ^ r - 1))).testBit j)
      (List.map (fun x => r + x) (List.range (b - r))) = [] := by
    rw [List.filter_eq_nil_iff]
    intro j hj
    simp only [List.mem_map, List.mem_range] at hj
    obtain ⟨x, hx, rfl⟩ := hj
    rw [Nat.testBit_or, hbit]
    have ht : (decide (r + x < b) ^^ decide (r + x < r)) = true := by
      have h3 : r + x < b := by omega
      have h4 : ¬ r + x < r := by omega
      simp [h3, h4]
    simp [ht]
    intro _
    omega
  rw [h1, h2, List.append_nil]

-- ### Array-level decomposition

/-- The zero-bit count the first pass of `detail::set` attributes to one
(full) word. -/
def zbw (lg w : Nat) : Nat := 2 ^ lg - popCount (w &&& (2 ^ 2 ^ lg - 1))

/-- Total first-pass zero count over a word list. -/
def sumZeros (lg : Nat) : List Nat → Nat
  | [] => 0
  | w :: ws => zbw lg w + sumZeros lg ws

theorem and_mask_self {lg w : Nat} (hw : w < 2 ^ 2 ^ lg) :
    w &&& (2 ^ 2 ^ lg - 1) = w := by
  rw [and_mask_eq_mod, Nat.mod_eq_of_lt hw]

theorem zbw_eq_zeroBits {lg w : Nat} (hw : w < 2 ^ 2 ^ lg) :
    zbw lg w = (zeroBitsBelow w (2 ^ lg)).length := by
  have h := popCount_add_zeroBits (2 ^ lg) w hw
  rw [zbw, and_mask_self hw]
  omega

theorem zbw_int (lg w : Nat) :
    (zbw lg w : Int) = (2 ^ lg : Int) - (popCount (w &&& (2 ^ 2 ^ lg - 1)) : Int) := by
  have hm : w &&& (2 ^ 2 ^ lg - 1) < 2 ^ 2 ^ lg := by
    have h1 : w &&& (2 ^ 2 ^ lg - 1) ≤ 2 ^ 2 ^ lg - 1 := by
      rw [and_mask_eq_mod]
      have := Nat.mod_lt w (y := 2 ^ 2 ^ lg) (Nat.pos_pow_of_pos _ (by norm_num))
      omega
    have h2 : (0 : Nat) < 2 ^ 2 ^ lg := Nat.pos_pow_of_pos _ (by norm_num)
    omega
  have hle := popCount_le_of_lt (2 ^ lg) _ hm
  rw [zbw, Nat.cast_sub hle]
  push_cast
  ring

theorem bitGet_cons_lt {lg b : Nat} (w : Nat) (ws : List Nat)
    (hb : b < 2 ^ lg) : bitGet lg (w :: ws) b = w.testBit b := by
  rw [bitGet, Nat.shiftRight_eq_div_pow, and_mask_eq_mod,
    Nat.div_eq_of_lt hb, Nat.mod_eq_of_lt hb]
  rfl

theorem bitGet_cons_ge {lg b : Nat} (w : Nat) (ws : List Nat)
    (hb : 2 ^ lg ≤ b) : bitGet lg (w :: ws) b = bitGet lg ws (b - 2 ^ lg) := by
  have hpos : 0 < 2 ^ lg := Nat.pos_pow_of_pos _ (by norm_num)
  obtain ⟨x, rfl⟩ : ∃ x, b = 2 ^ lg + x := ⟨b - 2 ^ lg, by omega⟩
  rw [bitGet, bitGet, Nat.shiftRight_eq_div_pow, Nat.shiftRight_eq_div_pow,
    and_mask_eq_mod, and_mask_eq_mod, Nat.add_mod_left]
  have hd : (2 ^ lg + x) / 2 ^ lg = x / 2 ^ lg + 1 := by
    rw [Nat.add_comm, Nat.add_div_right _ hpos]
  have hx : 2 ^ lg + x - 2 ^ lg = x := by omega
  rw [hd, hx, List.getD_cons_succ]

/-- Decomposing the zero positions of a word array at the first word
(`numBits` spans past the first word). -/
theorem zeroPositions_cons {lg numBits : Nat} (w : Nat) (ws : List Nat)
    (h : 2 ^ lg ≤ numBits) :
    zeroPositions lg (w :: ws) numBits
      = zeroBitsBelow w (2 ^ lg)
        ++ (zeroPositions lg ws (numBits - 2 ^ lg)).map (fun x => 2 ^ lg + x) := by
  unfold zeroPositions zeroBitsBelow
  have hsplit : List.range numBits
      = List.range (2 ^ lg)
        ++ List.map (fun x => 2 ^ lg + x) (List.range (numBits - 2 ^ lg)) := by
    rw [← List.range_add]
    congr 1
    omega
  rw [hsplit, List.filter_append, List.filter_map]
  congr 1
  · apply List.filter_congr
    intro b hb
    simp only [List.mem_range] at hb
    rw [bitGet_cons_lt w ws hb]
  · congr 1
    apply List.filter_congr
    intro x hx
    simp only [List.mem_range] at hx
    simp only [Function.comp_apply]
    rw [bitGet_cons_ge w ws (by omega)]
    congr 2
    omega

/-- Decomposing the zero positions when `numBits` ends within the first
word. -/
theorem zeroPositions_cons_small {lg numBits : Nat} (w : Nat) (ws : List Nat)
    (h : numBits ≤ 2 ^ lg) :
    zeroPositions lg (w :: ws) numBits = zeroBitsBelow w numBits := by
  unfold zeroPositions zeroBitsBelow
  apply List.filter_congr
  intro b hb
  simp only [List.mem_range] at hb
  rw [bitGet_cons_lt w ws (by omega)]

/-- When `numBits` covers the array exactly, the first-pass zero count is
the number of zero positions. -/
theorem sumZeros_eq_full (lg : Nat) : ∀ ws : List Nat,
    (∀ w ∈ ws, w < 2 ^ 2 ^ lg) →
    sumZeros lg ws = (zeroPositions lg ws (2 ^ lg * ws.length)).length := by
  intro ws
  induction ws with
  | nil =>
    intro _
    simp [sumZeros, zeroPositions]
  | cons w ws ih =>
    intro hw
    have hwlt : w < 2 ^ 2 ^ lg := hw w (by simp)
    have hlen : 2 ^ lg * (w :: ws).length = 2 ^ lg * ws.length + 2 ^ lg := by
      simp [List.length_cons]
      ring
    rw [sumZeros, hlen, zeroPositions_cons w ws (by omega)]
    have hsub : 2 ^ lg * ws.length + 2 ^ lg - 2 ^ lg = 2 ^ lg * ws.length := by
      omega
    rw [hsub, List.length_append, List.length_map,
      zbw_eq_zeroBits hwlt, ih (fun x hx => hw x (by simp [hx]))]

/-- When `numBits` ends `r` bits into the last word, the zero-position
count splits into full words plus the in-range zeros of the last word. -/
theorem sumZeros_eq_partial (lg r : Nat) (hr : r ≤ 2 ^ lg) :
    ∀ (ws : List Nat) (wl : Nat), (∀ w ∈ ws, w < 2 ^ 2 ^ lg) →
    (zeroPositions lg (ws ++ [wl]) (2 ^ lg * ws.length + r)).length
      = sumZeros lg ws + (zeroBitsBelow wl r).length := by
  intro ws
  induction ws with
  | nil =>
    intro wl _
    simp only [List.nil_append, List.length_nil, Nat.mul_zero, Nat.zero_add]
    rw [zeroPositions_cons_small wl [] hr]
    simp [sumZeros]
  | cons w ws ih =>
    intro wl hw
    have hwlt : w < 2 ^ 2 ^ lg := hw w (by simp)
    have hlen : 2 ^ lg * (w :: ws).length + r
        = (2 ^ lg * ws.length + r) + 2 ^ lg := by
      simp [List.length_cons]
      ring
    rw [List.cons_append, hlen, zeroPositions_cons w _ (by omega)]
    have hsub : 2 ^ lg * ws.length + r + 2 ^ lg - 2 ^ lg
        = 2 ^ lg * ws.length + r := by omega
    rw [hsub, List.length_append, List.length_map,
      ih wl (fun x hx => hw x (by simp [hx]))]
    simp only [sumZeros]
    rw [zbw_eq_zeroBits hwlt]
    omega

-- ### First-pass loop characterization

theorem countPassLoop_shift (lg : Nat) (w : Nat) (ws : List Nat) :
    ∀ (fuel : Nat) (b i : Nat) (z : Int),
    countPassLoop lg (w :: ws) (b + 1) (i + 1) z fuel
      = ((countPassLoop lg ws b i z fuel).1 + 1,
         (countPassLoop lg ws b i z fuel).2) := by
  intro fuel
  induction fuel with
  | zero => intro b i z; rfl
  | succ f ih =>
    intro b i z
    simp only [countPassLoop]
    by_cases h : i < b ∧ 0 < z
    · rw [if_pos (by omega), if_pos h]
      simp only [List.getD_cons_succ]
      exact ih b (i + 1) _
    · rw [if_neg (by omega), if_neg h]

/-- Characterization of the first pass: if the final `zeroes` is positive
the loop ran to completion and subtracted the zero count of the first
`b` words; in any case the final `zeroes` is at least `z` minus that
count. -/
theorem countPassLoop_char (lg : Nat) : ∀ (ws : List Nat) (b : Nat)
    (z : Int) (fuel : Nat), b ≤ fuel → b ≤ ws.length →
    (0 < (countPassLoop lg ws b 0 z fuel).2 →
        (countPassLoop lg ws b 0 z fuel).1 = b ∧
        (countPassLoop lg ws b 0 z fuel).2 = z - sumZeros lg (ws.take b)) ∧
    z - sumZeros lg (ws.take b) ≤ (countPassLoop lg ws b 0 z fuel).2 := by
  intro ws
  induction ws with
  | nil =>
    intro b z fuel hf hb
    have hb0 : b = 0 := by simpa using hb
    subst hb0
    cases fuel with
    | zero => exact ⟨fun h => ⟨rfl, by simp [countPassLoop, sumZeros]⟩,
        by simp [countPassLoop, sumZeros]⟩
    | succ f =>
      constructor
      · intro h
        refine ⟨?_, ?_⟩ <;> simp [countPassLoop, sumZeros] at *
      · simp [countPassLoop, sumZeros]
  | cons w ws ih =>
    intro b z fuel hf hb
    cases b with
    | zero =>
      cases fuel with
      | zero => exact ⟨fun _ => ⟨rfl, by simp [countPassLoop, sumZeros]⟩,
          by simp [countPassLoop, sumZeros]⟩
      | succ f =>
        constructor
        · intro h
          constructor <;> simp [countPassLoop] at *
          simp [sumZeros]
        · simp [countPassLoop, sumZeros]
    | succ b' =>
      cases fuel with
      | zero => omega
      | succ f =>
        by_cases hz : 0 < z
        · have hstep : countPassLoop lg (w :: ws) (b' + 1) 0 z (f + 1)
              = ((countPassLoop lg ws b' 0
                    (z - ((2 ^ lg : Int) - (popCount (w &&& (2 ^ 2 ^ lg - 1)) : Int))) f).1 + 1,
                 (countPassLoop lg ws b' 0
                    (z - ((2 ^ lg : Int) - (popCount (w &&& (2 ^ 2 ^ lg - 1)) : Int))) f).2) := by
            simp only [countPassLoop]
            rw [if_pos ⟨by omega, hz⟩]
            simp only [List.getD_cons_zero]
            exact countPassLoop_shift lg w ws f b' 0 _
          have hzs : z - ((2 ^ lg : Int) - (popCount (w &&& (2 ^ 2 ^ lg - 1)) : Int))
              = z - zbw lg w := by rw [zbw_int]
          have hih := ih b' (z - zbw lg w) f (by omega) (by simpa using hb)
          rw [hstep, hzs]
          simp only [List.take_succ_cons, sumZeros]
          constructor
          · intro h
            obtain ⟨h1, h2⟩ := hih.1 h
            refine ⟨by omega, ?_⟩
            rw [h2]
            push_cast
            ring
          · have := hih.2
            push_cast at this ⊢
            omega
        · have hstep : countPassLoop lg (w :: ws) (b' + 1) 0 z (f + 1) = (0, z) := by
            simp only [countPassLoop]
            rw [if_neg (by omega)]
          rw [hstep]
          constructor
          · intro h
            simp at h
            omega
          · have hzz : (0 : Int) ≤ sumZeros lg ((w :: ws).take (b' + 1)) := by
              positivity
            omega

-- ### Second-pass (filling) characterization

/-- The zero bits of `w` on `n` consecutive positions starting at `j`. -/
def zeroBitsFrom (w j n : Nat) : List Nat :=
  (List.range' j n).filter (fun b => ! w.testBit b)

/-- Setting a list of bit positions in one word. -/
def setBitsW (w : Nat) (l : List Nat) : Nat :=
  l.foldl (fun w b => w ||| (1 <<< b)) w

theorem and_one_shiftLeft (w j : Nat) :
    w &&& (1 <<< j) = (w.testBit j).toNat * 2 ^ j := by
  rw [Nat.one_shiftLeft, Nat.and_two_pow]

theorem and_one_shiftLeft_eq_zero {w j : Nat} :
    w &&& (1 <<< j) = 0 ↔ w.testBit j = false := by
  rw [and_one_shiftLeft]
  cases h : w.testBit j <;> simp [h]

theorem testBit_or_two_pow (w j b : Nat) :
    (w ||| (1 <<< j)).testBit b = (w.testBit b || decide (j = b)) := by
  rw [Nat.one_shiftLeft, Nat.testBit_or, Nat.testBit_two_pow]

/-- Characterization of the inner bit loop of the second pass: starting at
bit `j` with `fuel` remaining positions and `z < k` collected bits, it
takes the first `min (k - z) |T|` zero bits `T` of the word from `j` on,
sets them, and appends their global indices. -/
theorem fillPassWord_spec (lg i k : Nat) : ∀ (fuel j w z : Nat)
    (idxs : List Nat), z < k →
    fillPassWord lg i k j w z idxs fuel
      = (setBitsW w ((zeroBitsFrom w j fuel).take (min (k - z) (zeroBitsFrom w j fuel).length)),
         z + min (k - z) (zeroBitsFrom w j fuel).length,
         idxs ++ ((zeroBitsFrom w j fuel).take (min (k - z) (zeroBitsFrom w j fuel).length)).map
           (fun b => (i <<< lg) + b)) := by
  intro fuel
  induction fuel with
  | zero =>
    intro j w z idxs hz
    simp [fillPassWord, zeroBitsFrom, setBitsW]
  | succ f ih =>
    intro j w z idxs hz
    rw [fillPassWord]
    have hT : zeroBitsFrom w j (f + 1)
        = if w.testBit j then zeroBitsFrom w (j + 1) f
          else j :: zeroBitsFrom w (j + 1) f := by
      rw [zeroBitsFrom, List.range'_succ, List.filter_cons]
      cases h : w.testBit j <;> simp [h, zeroBitsFrom]
    by_cases hb : w.testBit j
    · -- bit already set: skip
      rw [if_neg (by rw [and_one_shiftLeft_eq_zero]; simp [hb]), hT, if_pos hb]
      exact ih (j + 1) w z idxs hz
    · -- zero bit found
      rw [if_pos (by rw [and_one_shiftLeft_eq_zero]; simp [hb]), hT, if_neg hb]
      dsimp only
      have hT' : zeroBitsFrom (w ||| (1 <<< j)) (j + 1) f
          = zeroBitsFrom w (j + 1) f := by
        rw [zeroBitsFrom, zeroBitsFrom]
        apply List.filter_congr
        intro b hbm
        have hbj : j < b := by
          rcases List.mem_range'_1.mp hbm with ⟨h1, _⟩
          omega
        rw [testBit_or_two_pow]
        have hne : j ≠ b := by omega
        simp [hne]
      by_cases hk : z + 1 = k
      · -- break: exactly the needed count reached
        rw [if_pos hk]
        have hmin : min (k - z) (j :: zeroBitsFrom w (j + 1) f).length = 1 := by
          simp only [List.length_cons]
          omega
        rw [hmin]
        simp [setBitsW]
      · rw [if_neg hk]
        rw [ih (j + 1) (w ||| (1 <<< j)) (z + 1) _ (by omega), hT']
        have hmin : min (k - z) (j :: zeroBitsFrom w (j + 1) f).length
            = min (k - (z + 1)) (zeroBitsFrom w (j + 1) f).length + 1 := by
          simp only [List.length_cons]
          omega
        rw [hmin]
        simp only [List.take_succ_cons, List.map_cons, Prod.mk.injEq]
        refine ⟨rfl, by omega, ?_⟩
        simp

-- ### Second-pass outer loop

/-- Zero positions of a word suffix: each word contributes its in-word
zero bits shifted by the running offset. -/
def zerosOff (lg : Nat) : Nat → List Nat → List Nat
  | _, [] => []
  | off, w :: ws =>
    (zeroBitsBelow w (2 ^ lg)).map (fun b => off + b)
      ++ zerosOff lg (off + 2 ^ lg) ws

/-- Setting one global bit position in the word array. -/
def setBitArr (lg : Nat) (ws : List Nat) (b : Nat) : List Nat :=
  ws.set (b >>> lg) (ws.getD (b >>> lg) 0 ||| (1 <<< (b &&& (2 ^ lg - 1))))

/-- Setting a list of global bit positions in the word array. -/
def setBitsArr (lg : Nat) (ws : List Nat) (l : List Nat) : List Nat :=
  l.foldl (setBitArr lg) ws

theorem setGetD_self {α : Type} (d : α) :
    ∀ (ws : List α) (i : Nat), i < ws.length → ws.set i (ws.getD i d) = ws := by
  intro ws
  induction ws with
  | nil => intro i h; simp at h
  | cons w ws ih =>
    intro i h
    cases i with
    | zero => rfl
    | succ j =>
      simp only [List.getD_cons_succ, List.set_cons_succ, List.cons.injEq,
        true_and]
      exact ih j (by simpa using h)

theorem word_pos_div {lg i b : Nat} (hb : b < 2 ^ lg) :
    (i * 2 ^ lg + b) >>> lg = i := by
  rw [Nat.shiftRight_eq_div_pow, Nat.mul_comm, Nat.mul_add_div
    (Nat.pos_pow_of_pos _ (by norm_num)), Nat.div_eq_of_lt hb]
  omega

theorem word_pos_mod {lg i b : Nat} (hb : b < 2 ^ lg) :
    (i * 2 ^ lg + b) &&& (2 ^ lg - 1) = b := by
  rw [and_mask_eq_mod, Nat.mul_comm, Nat.mul_add_mod, Nat.mod_eq_of_lt hb]

/-- Setting positions all lying in word `i` collapses to one word
update. -/
theorem setBitsArr_word (lg i : Nat) : ∀ (l : List Nat) (ws : List Nat),
    (∀ b ∈ l, b < 2 ^ lg) → i < ws.length →
    setBitsArr lg ws (l.map (fun b => i * 2 ^ lg + b))
      = ws.set i (setBitsW (ws.getD i 0) l) := by
  intro l
  induction l with
  | nil =>
    intro ws _ hi
    exact (setGetD_self 0 ws i hi).symm
  | cons b l ih =>
    intro ws hl hi
    have hb : b < 2 ^ lg := hl b (by simp)
    simp only [List.map_cons, setBitsArr, List.foldl_cons]
    have hstep : setBitArr lg ws (i * 2 ^ lg + b)
        = ws.set i (ws.getD i 0 ||| (1 <<< b)) := by
      rw [setBitArr, word_pos_div hb, word_pos_mod hb]
    rw [hstep]
    have := ih (ws.set i (ws.getD i 0 ||| (1 <<< b)))
      (fun x hx => hl x (by simp [hx])) (by simpa using hi)
    rw [setBitsArr] at this
    rw [this]
    have hg : (ws.set i (ws.getD i 0 ||| (1 <<< b))).getD i 0
        = ws.getD i 0 ||| (1 <<< b) := by
      rw [List.getD_eq_getElem?_getD, List.getElem?_set_self (by omega)]
      rfl
    rw [hg, List.set_set]
    rfl

theorem setBitsArr_length (lg : Nat) :
    ∀ (l : List Nat) (ws : List Nat), (setBitsArr lg ws l).length = ws.length := by
  intro l
  induction l with
  | nil => intro ws; rfl
  | cons b l ih =>
    intro ws
    simp only [setBitsArr, List.foldl_cons]
    rw [show List.foldl (setBitArr lg) (setBitArr lg ws b) l
        = setBitsArr lg (setBitArr lg ws b) l from rfl, ih]
    simp [setBitArr]

theorem bitGet_setBitArr (lg : Nat) (ws : List Nat) (b0 b : Nat)
    (h0 : b0 >>> lg < ws.length) :
    bitGet lg (setBitArr lg ws b0) b = (bitGet lg ws b || decide (b = b0)) := by
  have hpos : 0 < 2 ^ lg := Nat.pos_pow_of_pos _ (by norm_num)
  by_cases hq : b >>> lg = b0 >>> lg
  · have hg : (setBitArr lg ws b0).getD (b >>> lg) 0
        = ws.getD (b >>> lg) 0 ||| (1 <<< (b0 &&& (2 ^ lg - 1))) := by
      rw [setBitArr, List.getD_eq_getElem?_getD, hq, List.getElem?_set_self h0,
        Option.getD_some, ← hq, List.getD_eq_getElem?_getD]
    rw [bitGet, hg, testBit_or_two_pow, bitGet]
    congr 1
    rw [decide_eq_decide]
    have hb : b = (b >>> lg) * 2 ^ lg + (b &&& (2 ^ lg - 1)) := by
      rw [Nat.shiftRight_eq_div_pow, and_mask_eq_mod, Nat.mul_comm]
      exact (Nat.div_add_mod b (2 ^ lg)).symm
    have hb0 : b0 = (b0 >>> lg) * 2 ^ lg + (b0 &&& (2 ^ lg - 1)) := by
      rw [Nat.shiftRight_eq_div_pow, and_mask_eq_mod, Nat.mul_comm]
      exact (Nat.div_add_mod b0 (2 ^ lg)).symm
    have hfg : (b >>> lg) * 2 ^ lg = (b0 >>> lg) * 2 ^ lg := by rw [hq]
    constructor
    · intro he
      omega
    · intro he
      rw [he]
  · rw [bitGet, setBitArr, List.getD_eq_getElem?_getD,
      List.getElem?_set_ne (by omega), ← List.getD_eq_getElem?_getD]
    have hne : b ≠ b0 := fun he => hq (by rw [he])
    simp [bitGet, hne]

theorem bitGet_setBitsArr (lg : Nat) : ∀ (l : List Nat) (ws : List Nat) (b : Nat),
    (∀ x ∈ l, x >>> lg < ws.length) →
    bitGet lg (setBitsArr lg ws l) b = (bitGet lg ws b || decide (b ∈ l)) := by
  intro l
  induction l with
  | nil => intro ws b _; simp [setBitsArr]
  | cons x l ih =>
    intro ws b hl
    simp only [setBitsArr, List.foldl_cons]
    rw [show List.foldl (setBitArr lg) (setBitArr lg ws x) l
        = setBitsArr lg (setBitArr lg ws x) l from rfl]
    rw [ih (setBitArr lg ws x) b
      (fun y hy => by
        rw [show (setBitArr lg ws x).length = ws.length by simp [setBitArr]]
        exact hl y (by simp [hy]))]
    rw [bitGet_setBitArr lg ws x b (hl x (by simp))]
    simp only [List.mem_cons]
    cases hbx : decide (b = x) <;> cases hbl : decide (b ∈ l) <;>
      simp at hbx hbl ⊢ <;> tauto

theorem zeroBitsFrom_zero (w m : Nat) : zeroBitsFrom w 0 m = zeroBitsBelow w m := by
  rw [zeroBitsFrom, zeroBitsBelow, List.range_eq_range']

theorem zeroBitsBelow_full (m : Nat) : zeroBitsBelow (2 ^ m - 1) m = [] := by
  rw [zeroBitsBelow, List.filter_eq_nil_iff]
  intro j hj
  simp only [List.mem_range] at hj
  rw [Nat.testBit_two_pow_sub_one]
  simp [hj]

theorem zeroBitsBelow_mem_lt {w m b : Nat} (h : b ∈ zeroBitsBelow w m) : b < m := by
  rw [zeroBitsBelow, List.mem_filter] at h
  exact List.mem_range.mp h.1

theorem setBitsW_lt {m : Nat} : ∀ (l : List Nat) (w : Nat), w < 2 ^ m →
    (∀ b ∈ l, b < m) → setBitsW w l < 2 ^ m := by
  intro l
  induction l with
  | nil => intro w hw _; exact hw
  | cons b l ih =>
    intro w hw hl
    have hb : b < m := hl b (by simp)
    have hpow : (1 <<< b) < 2 ^ m := by
      rw [Nat.one_shiftLeft]
      exact Nat.pow_lt_pow_right (by norm_num) hb
    exact ih (w ||| (1 <<< b)) (Nat.or_lt_two_pow hw hpow)
      (fun x hx => hl x (by simp [hx]))

theorem fillPassLoop_done (lg k : Nat) (words : List Nat) (i z : Nat)
    (idxs : List Nat) (fuel : Nat) (h : ¬ z < k) :
    fillPassLoop lg k words i z idxs fuel = (words, idxs) := by
  cases fuel with
  | zero => rfl
  | succ f => simp [fillPassLoop, h]

/-- Characterization of the second pass's outer loop: starting at word `i`
with `z ≤ k` bits collected and enough zero bits remaining, it sets the
first `k - z` remaining zero positions and appends them to the index
list. -/
theorem fillPassLoop_spec (lg k : Nat) : ∀ (fuel : Nat) (words : List Nat)
    (i z : Nat) (idxs : List Nat),
    words.length = i + fuel →
    (∀ w ∈ words, w < 2 ^ 2 ^ lg) →
    z ≤ k →
    k - z ≤ (zerosOff lg (i * 2 ^ lg) (words.drop i)).length →
    fillPassLoop lg k words i z idxs fuel
      = (setBitsArr lg words ((zerosOff lg (i * 2 ^ lg) (words.drop i)).take (k - z)),
         idxs ++ (zerosOff lg (i * 2 ^ lg) (words.drop i)).take (k - z)) := by
  intro fuel
  induction fuel with
  | zero =>
    intro words i z idxs hlen hw hz hrem
    have hdrop : words.drop i = [] := by
      apply List.drop_eq_nil_of_le
      omega
    rw [hdrop] at hrem ⊢
    have hkz : k - z = 0 := by simpa [zerosOff] using hrem
    rw [hkz]
    simp [fillPassLoop, setBitsArr, zerosOff]
  | succ f ih =>
    intro words i z idxs hlen hw hz hrem
    by_cases hzk : z < k
    · have hi : i < words.length := by omega
      have hdrop : words.drop i = words.getD i 0 :: words.drop (i + 1) := by
        rw [List.getD_eq_getElem?_getD, List.getElem?_eq_getElem hi]
        exact List.drop_eq_getElem_cons hi
      set w := words.getD i 0 with hwdef
      have hwlt : w < 2 ^ 2 ^ lg := by
        apply hw
        rw [hwdef, List.getD_eq_getElem?_getD, List.getElem?_eq_getElem hi]
        exact List.getElem_mem hi
      have hmask : w &&& (2 ^ 2 ^ lg - 1) = w := and_mask_self hwlt
      have hZ : zerosOff lg (i * 2 ^ lg) (words.drop i)
          = (zeroBitsBelow w (2 ^ lg)).map (fun b => i * 2 ^ lg + b)
            ++ zerosOff lg ((i + 1) * 2 ^ lg) (words.drop (i + 1)) := by
        rw [hdrop]
        simp only [zerosOff, ← hwdef]
        congr 2
        ring
      rw [fillPassLoop]
      rw [if_pos hzk, hmask]
      by_cases hfull : w = 2 ^ 2 ^ lg - 1
      · -- full word: `continue`
        rw [if_pos hfull]
        have hZ0 : zeroBitsBelow w (2 ^ lg) = [] := by
          rw [hfull]
          exact zeroBitsBelow_full (2 ^ lg)
        rw [hZ, hZ0] at hrem ⊢
        simp only [List.map_nil, List.nil_append]
        exact ih words (i + 1) z idxs (by omega) hw hz hrem
      · rw [if_neg hfull]
        dsimp only
        have hword := fillPassWord_spec lg i k (2 ^ lg) 0 w z idxs hzk
        rw [zeroBitsFrom_zero] at hword
        set W := zeroBitsBelow w (2 ^ lg) with hWdef
        have hWlt : ∀ b ∈ W, b < 2 ^ lg := fun b hb => zeroBitsBelow_mem_lt hb
        rw [hword]
        dsimp only
        by_cases hcase : k - z ≤ W.length
        · -- this word completes the allocation
          have hmin : min (k - z) W.length = k - z := by omega
          rw [hmin]
          have hdone : z + (k - z) = k := by omega
          rw [hdone, fillPassLoop_done lg k _ _ _ _ _ (by omega)]
          have htake : (zerosOff lg (i * 2 ^ lg) (words.drop i)).take (k - z)
              = (W.take (k - z)).map (fun b => i * 2 ^ lg + b) := by
            rw [hZ, List.take_append_of_le_length (by simpa using hcase),
              List.map_take]
          rw [htake, setBitsArr_word lg i (W.take (k - z)) words
            (fun b hb => hWlt b (List.mem_of_mem_take hb)) hi]
          rw [← hwdef, Nat.shiftLeft_eq]
        · -- word exhausted, carry on to the next word
          push_neg at hcase
          have hmin : min (k - z) W.length = W.length := by omega
          rw [hmin, List.take_length]
          have hset : (words.set i (setBitsW w W)).length = (i + 1) + f := by
            rw [List.length_set]
            omega
          have hw' : ∀ x ∈ words.set i (setBitsW w W), x < 2 ^ 2 ^ lg := by
            intro x hx
            rcases List.mem_or_eq_of_mem_set hx with hmem | rfl
            · exact hw x hmem
            · exact setBitsW_lt W w hwlt hWlt
          have hdropset : (words.set i (setBitsW w W)).drop (i + 1)
              = words.drop (i + 1) := by
            rw [List.drop_set]
            simp
          have hrem' : k - (z + W.length)
              ≤ (zerosOff lg ((i + 1) * 2 ^ lg)
                  ((words.set i (setBitsW w W)).drop (i + 1))).length := by
            rw [hdropset]
            rw [hZ] at hrem
            simp only [List.length_append, List.length_map] at hrem
            omega
          rw [ih (words.set i (setBitsW w W)) (i + 1) (z + W.length) _ hset hw'
            (by omega) hrem']
          rw [hdropset]
          have htake : (zerosOff lg (i * 2 ^ lg) (words.drop i)).take (k - z)
              = W.map (fun b => i * 2 ^ lg + b)
                ++ (zerosOff lg ((i + 1) * 2 ^ lg) (words.drop (i + 1))).take
                    (k - (z + W.length)) := by
            rw [hZ, List.take_append_eq_append_take]
            congr 1
            · apply List.take_of_length_le
              simp
              omega
            · congr 1
              simp
              omega
          rw [htake]
          simp only [Prod.mk.injEq]
          refine ⟨?_, ?_⟩
          · -- word arrays agree
            conv_rhs => rw [setBitsArr, List.foldl_append]
            rw [show List.foldl (setBitArr lg) words (List.map (fun b => i * 2 ^ lg + b) W)
                = setBitsArr lg words (List.map (fun b => i * 2 ^ lg + b) W) from rfl,
              setBitsArr_word lg i W words hWlt hi, ← hwdef]
            rfl
          · -- index lists agree
            rw [Nat.shiftLeft_eq, List.append_assoc]
    · rw [fillPassLoop_done lg k _ _ _ _ _ hzk]
      have hkz : k - z = 0 := by omega
      rw [hkz]
      simp [setBitsArr]

-- ### Glue between the two passes

theorem zerosOff_eq (lg : Nat) : ∀ (ws : List Nat) (off : Nat),
    zerosOff lg off ws
      = (zeroPositions lg ws (2 ^ lg * ws.length)).map (fun b => off + b) := by
  intro ws
  induction ws with
  | nil =>
    intro off
    simp [zerosOff, zeroPositions]
  | cons w ws ih =>
    intro off
    have hd : 2 ^ lg * (w :: ws).length = 2 ^ lg * ws.length + 2 ^ lg := by
      simp [List.length_cons]
      ring
    rw [zerosOff, hd, zeroPositions_cons w ws (by omega), ih (off + 2 ^ lg)]
    have hsub : 2 ^ lg * ws.length + 2 ^ lg - 2 ^ lg = 2 ^ lg * ws.length := by
      omega
    rw [hsub, List.map_append, List.map_map]
    congr 1
    apply List.map_congr_left
    intro x _
    simp only [Function.comp_apply]
    omega

theorem zerosOff_zero (lg : Nat) (ws : List Nat) :
    zerosOff lg 0 ws = zeroPositions lg ws (2 ^ lg * ws.length) := by
  rw [zerosOff_eq]
  simp

/-- Widening the bit range of `zeroPositions` appends a suffix: the
in-range zero positions are a prefix of the all-words zero positions. -/
theorem zeroPositions_prefix (lg : Nat) (ws : List Nat) (numBits M : Nat)
    (h : numBits ≤ M) :
    ∃ tail, zeroPositions lg ws M = zeroPositions lg ws numBits ++ tail := by
  refine ⟨(List.map (fun x => numBits + x) (List.range (M - numBits))).filter
      (fun b => ! bitGet lg ws b), ?_⟩
  unfold zeroPositions
  rw [show M = numBits + (M - numBits) by omega, List.range_add,
    List.filter_append]
  have he : numBits + (M - numBits) - numBits = M - numBits := by omega
  rw [he]

theorem list_take_getD_split {α : Type} (d : α) (l : List α) (n : Nat)
    (h : l.length = n + 1) : l = l.take n ++ [l.getD n d] := by
  have h1 : l.take n ++ l.drop n = l := List.take_append_drop n l
  have h2 : l.drop n = [l.getD n d] := by
    have hn : n < l.length := by omega
    rw [List.drop_eq_getElem_cons hn, List.drop_eq_nil_of_le (by omega),
      List.getD_eq_getElem?_getD, List.getElem?_eq_getElem hn]
    rfl
  conv_lhs => rw [← List.take_append_drop n l]
  rw [h2]

theorem pairwise_zeroPositions (lg : Nat) (ws : List Nat) (numBits : Nat) :
    List.Pairwise (· < ·) (zeroPositions lg ws numBits) :=
  List.Pairwise.sublist (List.filter_sublist _) (List.pairwise_lt_range numBits)

/-- The first pass's final `zeroes` is positive exactly when fewer than
`k` zero bits exist among the first `numBits` bits. -/
theorem pass1Zeroes_pos_iff (lg : Nat) (words : List Nat) (k numBits : Nat)
    (hwords : ∀ w ∈ words, w < 2 ^ 2 ^ lg)
    (_hnb : 0 < numBits)
    (hlen : words.length = (numBits + (2 ^ lg - 1)) / 2 ^ lg) :
    (0 < pass1Zeroes lg words k numBits
      ↔ (zeroPositions lg words numBits).length < k) := by
  have hbpos : (0 : Nat) < 2 ^ lg := Nat.pos_pow_of_pos _ (by norm_num)
  have hrm : numBits &&& (2 ^ lg - 1) = numBits % 2 ^ lg := and_mask_eq_mod _ _
  have hnw : (numBits + (2 ^ lg - 1)) >>> lg = (numBits + (2 ^ lg - 1)) / 2 ^ lg :=
    Nat.shiftRight_eq_div_pow _ _
  have hdm := Nat.div_add_mod numBits (2 ^ lg)
  have hrlt : numBits % 2 ^ lg < 2 ^ lg := Nat.mod_lt _ hbpos
  unfold pass1Zeroes
  dsimp only
  rw [hrm, hnw]
  by_cases hr : numBits % 2 ^ lg = 0
  · -- numBits is a multiple of the word size: no partial word
    rw [hr, if_neg (show ¬ (0 : Nat) < 0 by omega)]
    have hq : (numBits + (2 ^ lg - 1)) / 2 ^ lg = numBits / 2 ^ lg := by
      have hnum : numBits = 2 ^ lg * (numBits / 2 ^ lg) := by omega
      conv_lhs => rw [hnum]
      rw [Nat.mul_add_div hbpos,
        Nat.div_eq_of_lt (show 2 ^ lg - 1 < 2 ^ lg by omega)]
      omega
    have hwl : numBits / 2 ^ lg = words.length := by rw [hlen, hq]
    rw [Nat.sub_zero, hq, hwl]
    have hchar := countPassLoop_char lg words words.length (k : Int)
      words.length le_rfl le_rfl
    rw [List.take_length] at hchar
    have hnum : numBits = 2 ^ lg * words.length := by
      have h1 : numBits = 2 ^ lg * (numBits / 2 ^ lg) := by omega
      rw [h1, hwl]
    have hS : sumZeros lg words = (zeroPositions lg words numBits).length := by
      rw [sumZeros_eq_full lg words hwords, ← hnum]
    rw [if_neg (by simp)]
    constructor
    · intro h
      obtain ⟨_, h2⟩ := hchar.1 h
      rw [h2] at h
      omega
    · intro h
      have := hchar.2
      omega
  · -- partial final word
    rw [if_pos (show 0 < numBits % 2 ^ lg by omega)]
    have hq1 : (numBits + (2 ^ lg - 1)) / 2 ^ lg = numBits / 2 ^ lg + 1 := by
      have hr1 : 1 ≤ numBits % 2 ^ lg := by omega
      have hp : 2 ^ lg * (numBits / 2 ^ lg + 1)
          = 2 ^ lg * (numBits / 2 ^ lg) + 2 ^ lg := by ring
      have hstep : numBits + (2 ^ lg - 1)
          = 2 ^ lg * (numBits / 2 ^ lg + 1) + (numBits % 2 ^ lg - 1) := by
        omega
      rw [hstep, Nat.mul_add_div hbpos,
        Nat.div_eq_of_lt (show numBits % 2 ^ lg - 1 < 2 ^ lg by omega)]
    have hwl : words.length = numBits / 2 ^ lg + 1 := by rw [hlen, hq1]
    have hqlt : numBits / 2 ^ lg < words.length := by omega
    rw [hq1]
    have hsub1 : numBits / 2 ^ lg + 1 - 1 = numBits / 2 ^ lg :=
      Nat.add_sub_cancel _ _
    rw [hsub1]
    -- the loop covers the full words; the partial word is words[q]
    have hchar := countPassLoop_char lg words (numBits / 2 ^ lg) (k : Int)
      (numBits / 2 ^ lg) le_rfl (by omega)
    set q := numBits / 2 ^ lg with hqdef
    set wl := words.getD q 0 with hwldef
    have hwlmem : wl ∈ words := by
      rw [hwldef, List.getD_eq_getElem?_getD, List.getElem?_eq_getElem hqlt]
      exact List.getElem_mem hqlt
    have hwllt : wl < 2 ^ 2 ^ lg := hwords wl hwlmem
    have hmask : wl &&& (2 ^ 2 ^ lg - 1) = wl := and_mask_self hwllt
    have hlast : (2 ^ 2 ^ lg - 1) ^^^ ((1 <<< (numBits % 2 ^ lg)) - 1)
        = (2 ^ 2 ^ lg - 1) ^^^ (2 ^ (numBits % 2 ^ lg) - 1) := by
      rw [Nat.one_shiftLeft]
    -- the masked partial-word count is the in-range zero count of wl
    have hor : (wl ||| ((2 ^ 2 ^ lg - 1) ^^^ (2 ^ (numBits % 2 ^ lg) - 1)))
        < 2 ^ 2 ^ lg := by
      apply Nat.or_lt_two_pow hwllt
      apply Nat.xor_lt_two_pow
      · have : (0 : Nat) < 2 ^ 2 ^ lg := Nat.pos_pow_of_pos _ (by norm_num)
        omega
      · have h1 : (2 : Nat) ^ (numBits % 2 ^ lg) ≤ 2 ^ 2 ^ lg :=
          Nat.pow_le_pow_right (by norm_num) (by omega)
        have : (0 : Nat) < 2 ^ (numBits % 2 ^ lg) :=
          Nat.pos_pow_of_pos _ (by norm_num)
        omega
    have hpc := popCount_add_zeroBits (2 ^ lg) _ hor
    rw [zeroBits_or_mask wl (numBits % 2 ^ lg) (2 ^ lg) (by omega)] at hpc
    -- total zero count decomposition
    have hfrontlen : (words.take q).length = q := by
      rw [List.length_take]
      omega
    have hsplit : words = words.take q ++ [wl] :=
      list_take_getD_split 0 words q (by omega)
    have hZ : (zeroPositions lg words numBits).length
        = sumZeros lg (words.take q) + (zeroBitsBelow wl (numBits % 2 ^ lg)).length := by
      have hnumeq : numBits = 2 ^ lg * (words.take q).length + numBits % 2 ^ lg := by
        rw [hfrontlen]
        omega
      conv_lhs => rw [hsplit, hnumeq]
      exact sumZeros_eq_partial lg (numBits % 2 ^ lg) (by omega) (words.take q) wl
        (fun x hx => hwords x (List.mem_of_mem_take hx))
    by_cases hp2 : 0 < (countPassLoop lg words q 0 (k : Int) q).2
    · obtain ⟨hp1, hpz⟩ := hchar.1 hp2
      rw [if_pos ⟨hp2, rfl⟩, hp1, ← hwldef, hmask, hlast, hpz]
      have hple : popCount (wl ||| ((2 ^ 2 ^ lg - 1) ^^^ (2 ^ (numBits % 2 ^ lg) - 1)))
          ≤ 2 ^ lg := by omega
      rw [hZ]
      omega
    · rw [if_neg (by tauto)]
      have h2 := hchar.2
      rw [hZ]
      constructor
      · intro h
        omega
      · intro h
        omega

theorem zeroPositions_mem_lt {lg : Nat} {ws : List Nat} {numBits b : Nat}
    (h : b ∈ zeroPositions lg ws numBits) : b < numBits := by
  rw [zeroPositions, List.mem_filter] at h
  exact List.mem_range.mp h.1

/-- C5: for every bitset state (any word size `2 ^ lg`, any in-range word
values, the array sized to hold `numBits` bits) and every `k ≥ 1`: if
fewer than `k` zero bits exist among the first `numBits` bits,
`detail::set` returns `false` with the bit array untouched; otherwise it
returns `true`, writes exactly the `k` lowest zero-bit indices into the
output array in strictly ascending order, sets exactly those bits, and
changes no other bit. -/
theorem detailSet_contract (lg : Nat) (words : List Nat) (k numBits : Nat)
    (hk : 1 ≤ k)
    (hwords : ∀ w ∈ words, w < 2 ^ 2 ^ lg)
    (hnb : 0 < numBits)
    (hlen : words.length = (numBits + (2 ^ lg - 1)) / 2 ^ lg) :
    ((zeroPositions lg words numBits).length < k →
        detailSet lg words k numBits
          = { ok := false, words := words, indexes := [], assertOk := true })
    ∧ (k ≤ (zeroPositions lg words numBits).length →
        (detailSet lg words k numBits).ok = true
        ∧ (detailSet lg words k numBits).indexes
            = (zeroPositions lg words numBits).take k
        ∧ List.Pairwise (· < ·) (detailSet lg words k numBits).indexes
        ∧ (detailSet lg words k numBits).words.length = words.length
        ∧ ∀ b, bitGet lg (detailSet lg words k numBits).words b
            = (bitGet lg words b
               || decide (b ∈ (zeroPositions lg words numBits).take k))) := by
  have hbpos : (0 : Nat) < 2 ^ lg := Nat.pos_pow_of_pos _ (by norm_num)
  have hiff := pass1Zeroes_pos_iff lg words k numBits hwords hnb hlen
  have hassert : (decide (0 < numBits) && decide (0 < k)) = true := by
    simp only [Bool.and_eq_true, decide_eq_true_eq]
    omega
  constructor
  · -- failure: fewer than k zero bits
    intro h
    rw [detailSet]
    dsimp only
    rw [if_pos (hiff.mpr h), hassert]
  · -- success: at least k zero bits
    intro h
    have hM : numBits ≤ 2 ^ lg * words.length := by
      rw [hlen]
      have hdm := Nat.div_add_mod (numBits + (2 ^ lg - 1)) (2 ^ lg)
      have hmlt := Nat.mod_lt (numBits + (2 ^ lg - 1)) hbpos
      omega
    obtain ⟨tail, htail⟩ := zeroPositions_prefix lg words numBits
      (2 ^ lg * words.length) hM
    have hZoff : zerosOff lg 0 words
        = zeroPositions lg words numBits ++ tail := by
      rw [zerosOff_zero, htail]
    have hrem : k - 0 ≤ (zerosOff lg (0 * 2 ^ lg) (words.drop 0)).length := by
      simp only [List.drop_zero, Nat.zero_mul]
      rw [hZoff, List.length_append]
      omega
    have hloop := fillPassLoop_spec lg k words.length words 0 0 []
      (by omega) hwords (by omega) hrem
    simp only [List.drop_zero, Nat.zero_mul, Nat.sub_zero, List.nil_append]
      at hloop
    rw [hZoff, List.take_append_of_le_length h] at hloop
    have hcond : ¬ 0 < pass1Zeroes lg words k numBits := by
      rw [hiff]
      omega
    rw [detailSet]
    dsimp only
    rw [if_neg hcond, hloop]
    dsimp only
    refine ⟨rfl, rfl, ?_, ?_, ?_⟩
    · -- ascending: the zero positions are a filtered range
      exact List.Pairwise.sublist (List.take_sublist _ _)
        (pairwise_zeroPositions lg words numBits)
    · exact setBitsArr_length lg _ words
    · intro b
      apply bitGet_setBitsArr
      intro x hx
      have hxlt : x < numBits :=
        zeroPositions_mem_lt (List.mem_of_mem_take hx)
      rw [Nat.shiftRight_eq_div_pow, Nat.div_lt_iff_lt_mul hbpos]
      calc x < numBits := hxlt
      _ ≤ 2 ^ lg * words.length := hM
      _ = words.length * 2 ^ lg := by ring

/-- Witness for C5 at a concrete 8-bit input (scenario 6): pattern with
zero bits {2, 6, 7}; asking for 4 bits fails unchanged, and the same
theorem instance also certifies the successful 3-bit case through its
second conjunct. -/
theorem detailSet_contract_witness :
    ((zeroPositions 3 [59] 8).length < 4
      ∧ detailSet 3 [59] 4 8
          = { ok := false, words := [59], indexes := [], assertOk := true })
    ∧ (3 ≤ (zeroPositions 3 [59] 8).length
      ∧ (detailSet 3 [59] 3 8).ok = true
      ∧ (detailSet 3 [59] 3 8).indexes = (zeroPositions 3 [59] 8).take 3) := by
  have h4 := detailSet_contract 3 [59] 4 8 (by decide) (by decide) (by decide)
    (by decide)
  have h3 := detailSet_contract 3 [59] 3 8 (by decide) (by decide) (by decide)
    (by decide)
  refine ⟨⟨by decide, h4.1 (by decide)⟩, by decide, (h3.2 (by decide)).1,
    (h3.2 (by decide)).2.1⟩

-- ## BlockAllocator (ChunkManagerImpl.cc lines 240-328)

/-- The `BlockAllocator` of ChunkManagerImpl.h: a `Bitset` over
`TraitsType::NUM_BLOCKS` bits (the `_allocator` member, its words in
`bits`), the traits constants, and the `_offset` of the block pool
relative to the allocator.  The internal mutex only serializes access and
has no sequential meaning. -/
structure BlockAllocator where
  lg : Nat
  numBlocks : Nat
  maxBlocksPerChunk : Nat
  blockSize : Nat
  offset : Nat
  bits : List Nat
deriving DecidableEq, Repr

/-- `BlockAllocator::allocate(blockOffsets, n)`, ChunkManagerImpl.cc lines
281-298.  `n` is `uint32_t`, so the `n < 0` half of the range check never
fires.  Returns the offsets written to `blockOffsets[0..n)`, the
post-state, and whether every debug assertion encountered held. -/
def BlockAllocator.allocate (a : BlockAllocator) (n : Nat) :
    Except Err (List Nat) × BlockAllocator × Bool :=
  if a.maxBlocksPerChunk < n then
    (.error .outOfRange, a, true)
  else
    let r := detailSet a.lg a.bits n a.numBlocks
    if r.ok = false then
      (.error .badAlloc, { a with bits := r.words }, r.assertOk)
    else
      (.ok (r.indexes.map (fun i => a.offset + i * a.blockSize)),
       { a with bits := r.words }, r.assertOk)

/-- `BlockAllocator::free(blockOffsets, n)`, ChunkManagerImpl.cc lines
308-328: translates the first `n` offsets to bit indices and clears those
bits.  The debug assertions (count cap, pool range, block alignment) are
recorded in the boolean; as in a release build, execution continues.  The
C++ `size_t` subtraction would wrap on an offset below `_offset`; the
range assertion records exactly the cases where the conversion is
meaningful. -/
def BlockAllocator.free (a : BlockAllocator) (blockOffsets : List Nat)
    (n : Nat) : BlockAllocator × Bool :=
  let assert0 := decide (n ≤ a.maxBlocksPerChunk)
  let offs := blockOffsets.take n
  let assert1 := offs.all (fun off =>
    decide (off - a.offset < a.numBlocks * a.blockSize)
      && decide ((off - a.offset) % a.blockSize = 0))
  let conv := offs.map (fun off => (off - a.offset) / a.blockSize)
  let r := detailReset a.lg a.bits conv a.numBlocks
  ({ a with bits := r.1 }, assert0 && assert1 && r.2)

theorem countPassLoop_nonpos (lg : Nat) (ws : List Nat) (b i : Nat) (z : Int)
    (fuel : Nat) (hz : ¬ 0 < z) :
    countPassLoop lg ws b i z fuel = (i, z) := by
  cases fuel with
  | zero => rfl
  | succ f =>
    rw [countPassLoop, if_neg (by tauto)]

/-- `detail::set` with `numBitsToSet = 0`: both passes fall through, the
call succeeds without touching the array, but the `numBitsToSet > 0`
debug assertion does not hold. -/
theorem detailSet_zero (lg : Nat) (ws : List Nat) (numBits : Nat) :
    detailSet lg ws 0 numBits
      = { ok := true, words := ws, indexes := [], assertOk := false } := by
  have hpass : pass1Zeroes lg ws 0 numBits = 0 := by
    rw [pass1Zeroes]
    simp only [Nat.cast_zero]
    rw [countPassLoop_nonpos lg ws _ 0 0 _ (by omega)]
    rw [if_neg (by simp)]
  rw [detailSet]
  dsimp only
  rw [hpass, if_neg (by omega), fillPassLoop_done lg 0 ws 0 0 [] ws.length (by omega)]
  simp

/-- C8 (amended): `allocate(out, 0)` passes the range check and, as the
release build runs it, succeeds as a no-op with the bitmap unchanged —
but the `numBitsToSet > 0` debug assertion in `detail::set` does not
hold; and for every `n` over `MAX_BLOCKS_PER_CHUNK` the call fails with
`OutOfRange` leaving the bitmap unchanged. -/
theorem blockAllocator_allocate_bounds (a : BlockAllocator) (n : Nat)
    (h0 : 0 < a.maxBlocksPerChunk) :
    a.allocate 0 = (.ok [], a, false)
    ∧ (a.maxBlocksPerChunk < n →
        a.allocate n = (.error .outOfRange, a, true)) := by
  constructor
  · rw [BlockAllocator.allocate, if_neg (by omega)]
    rw [detailSet_zero]
    simp
  · intro h
    rw [BlockAllocator.allocate, if_pos h]

/-- Witness for C8 at a concrete allocator state. -/
theorem blockAllocator_allocate_bounds_witness :
    (0 : Nat) <
        (BlockAllocator.mk 3 8 4 64 128 [0b00111011]).maxBlocksPerChunk
    ∧ (BlockAllocator.mk 3 8 4 64 128 [0b00111011]).allocate 0
        = (.ok [], BlockAllocator.mk 3 8 4 64 128 [0b00111011], false)
    ∧ ((BlockAllocator.mk 3 8 4 64 128 [0b00111011]).maxBlocksPerChunk < 5 →
        (BlockAllocator.mk 3 8 4 64 128 [0b00111011]).allocate 5
          = (.error .outOfRange, BlockAllocator.mk 3 8 4 64 128 [0b00111011],
             true)) := by
  have h := blockAllocator_allocate_bounds
    (BlockAllocator.mk 3 8 4 64 128 [0b00111011]) 5 (by decide)
  exact ⟨by decide, h.1, h.2⟩

/-- Counterexample to C8 as stated: `allocate(out, 0)` does trigger a
debug assertion — the `numBitsToSet > 0` assertion at the head of
`detail::set` fails (third result component `false`), even though the
release-build call succeeds without changing the bitmap. -/
theorem blockAllocator_allocate_zero_assert_cex :
    ((BlockAllocator.mk 3 8 4 64 128 [0b00111011]).allocate 0).2.2 = false
    ∧ ((BlockAllocator.mk 3 8 4 64 128 [0b00111011]).allocate 0).1
        = .ok []
    ∧ ((BlockAllocator.mk 3 8 4 64 128 [0b00111011]).allocate 0).2.1.bits
        = [0b00111011] := by
  decide

-- ## HashedSet (ChunkManagerImpl.cc lines 59-226)

/-- One slot of a `HashedSet`'s `_entries` array.  `id` and `nextInChain`
are the `EntryType` fields accessed through `getId`/`setId`/
`getNextInChain`/`setNextInChain`; `val` is the remaining payload of the
entry type (visit or chunk-descriptor state). -/
structure HSEntry (α : Type) where
  id : Int
  nextInChain : Int
  val : α
deriving DecidableEq, Repr

/-- `HashedSet<EntryType, NumEntries>`: fixed-capacity set with a
`2·NumEntries`-bucket hash table, collision chains and a free list
threaded through the entries' `nextInChain` fields. -/
structure HashedSet (α : Type) where
  numEntries : Nat
  hashTable : List Int
  entries : List (HSEntry α)
  free : Int
  size : Nat
deriving DecidableEq, Repr

/-- The bucket of an id: `hash(id) & (2*NumEntries - 1)`. -/
def HashedSet.bucketOf {α : Type} (s : HashedSet α) (id : Int) : Nat :=
  hashI64 id &&& (2 * s.numEntries - 1)

/-- Walking a bucket chain while tracking the `last` visited index (the
shape shared by the loops of `doFind`, `insert`, `findOrInsert` and
`erase`): returns the index of the entry whose id matches (or `none`)
together with the last index visited before it (−1 at the chain head).
The C++ loops terminate only because well-formed chains are acyclic;
`fuel` bounds the walk and is never exhausted on a well-formed chain. -/
def chainLocate {α : Type} (entries : List (HSEntry α)) (id : Int) :
    Int → Int → Nat → Option Nat × Int
  | _, last, 0 => (none, last)
  | i, last, fuel + 1 =>
    if 0 ≤ i then
      match entries[i.toNat]? with
      | none => (none, last)
      | some e =>
        if id = e.id then (some i.toNat, last)
        else chainLocate entries id e.nextInChain i fuel
    else
      (none, last)

/-- `HashedSet::doFind`, lines 81-91: the index of the entry with the
given id, if any. -/
def HashedSet.find {α : Type} (s : HashedSet α) (id : Int) : Option Nat :=
  (chainLocate s.entries id (s.hashTable.getD (s.bucketOf id) (-1)) (-1)
    (s.entries.length + 1)).1

/-- Update the entry at a (nonnegative, in-range) index; out-of-range
indices leave the array unchanged (they never occur in well-formed
states). -/
def updEntry {α : Type} (entries : List (HSEntry α)) (i : Int)
    (f : HSEntry α → HSEntry α) : List (HSEntry α) :=
  if 0 ≤ i then
    match entries[i.toNat]? with
    | some e => entries.set i.toNat (f e)
    | none => entries
  else entries

/-- `HashedSet::insert`, lines 103-141: fails (returns `none`) when no
free entry remains or when an entry with the id already exists; otherwise
takes the head of the free list, links it at the end of the bucket chain,
default-constructs the payload in place and sets the id. -/
def HashedSet.insert {α : Type} (dflt : α) (s : HashedSet α) (id : Int) :
    Option Nat × HashedSet α :=
  if s.free < 0 then (none, s)
  else
    let bucket := s.bucketOf id
    let w := chainLocate s.entries id (s.hashTable.getD bucket (-1)) (-1)
      (s.entries.length + 1)
    match w.1 with
    | some _ => (none, s)
    | none =>
      let c := s.free
      let free' := match s.entries[c.toNat]? with
        | some e => e.nextInChain
        | none => -1
      let hashTable' := if w.2 < 0 then s.hashTable.set bucket c else s.hashTable
      let entries1 := if w.2 < 0 then s.entries
        else updEntry s.entries w.2 (fun e => { e with nextInChain := c })
      let entries2 := updEntry entries1 c
        (fun _ => { id := id, nextInChain := -1, val := dflt })
      (some c.toNat,
       { s with hashTable := hashTable', entries := entries2, free := free',
                size := s.size + 1 })

/-- `HashedSet::findOrInsert`, lines 155-190: like `insert`, but returns
the preexisting entry when found, and signals exhaustion by
`(none, inserted := true)`. -/
def HashedSet.findOrInsert {α : Type} (dflt : α) (s : HashedSet α) (id : Int) :
    (Option Nat × Bool) × HashedSet α :=
  let bucket := s.bucketOf id
  let w := chainLocate s.entries id (s.hashTable.getD bucket (-1)) (-1)
    (s.entries.length + 1)
  match w.1 with
  | some i => ((some i, false), s)
  | none =>
    let c := s.free
    if c < 0 then ((none, true), s)
    else
      let free' := match s.entries[c.toNat]? with
        | some e => e.nextInChain
        | none => -1
      let hashTable' := if w.2 < 0 then s.hashTable.set bucket c else s.hashTable
      let entries1 := if w.2 < 0 then s.entries
        else updEntry s.entries w.2 (fun e => { e with nextInChain := c })
      let entries2 := updEntry entries1 c
        (fun _ => { id := id, nextInChain := -1, val := dflt })
      ((some c.toNat, true),
       { s with hashTable := hashTable', entries := entries2, free := free',
                size := s.size + 1 })

/-- `HashedSet::erase`, lines 200-226: unlinks the entry from its bucket
chain, sets its id to −1, pushes it on the free list.  The payload is not
touched. -/
def HashedSet.erase {α : Type} (s : HashedSet α) (id : Int) :
    Bool × HashedSet α :=
  let bucket := s.bucketOf id
  let w := chainLocate s.entries id (s.hashTable.getD bucket (-1)) (-1)
    (s.entries.length + 1)
  match w.1 with
  | none => (false, s)
  | some i =>
    let nexti := match s.entries[i]? with
      | some e => e.nextInChain
      | none => -1
    let hashTable' := if w.2 < 0 then s.hashTable.set bucket nexti
      else s.hashTable
    let entries1 := if w.2 < 0 then s.entries
      else updEntry s.entries w.2 (fun e => { e with nextInChain := nexti })
    let entries2 := updEntry entries1 (Int.ofNat i)
      (fun e => { e with id := -1, nextInChain := s.free })
    (true,
     { s with hashTable := hashTable', entries := entries2,
              free := Int.ofNat i, size := s.size - 1 })

/-- `HashedSet::space()` (declared in the missing ChunkManagerImpl.h).
Modelled from the spec: the number of free entries remaining, used by
`startVisit`'s capacity pre-check (`free descriptors < chunkIds.size()`
fails), which is `NumEntries − size`. -/
def HashedSet.space {α : Type} (s : HashedSet α) : Nat :=
  s.numEntries - s.size

/-- The `HashedSet` constructor, ChunkManagerImpl.cc lines 59-72: clears
the hash table, threads the free list through the entries, and sets the
ids of entries `0 .. NumEntries-2` to −1.  The body never writes the id
of the LAST entry (line 71 sets only its chain link).  `junk` is the
`_entries` member array as default-initialization left it; the entry
types are declared in ChunkManagerImpl.h, which is not among the sources
at hand, and the spec (modelled here) nowhere states that a
default-constructed entry carries id −1, so the last entry's id stays
whatever `junk` holds. -/
def HashedSet.init {α : Type} (numEntries : Nat) (junk : List (HSEntry α)) :
    HashedSet α :=
  let entries1 := (List.range (numEntries - 1)).foldl
    (fun es i => updEntry es (Int.ofNat i)
      (fun e => { e with id := -1, nextInChain := Int.ofNat (i + 1) })) junk
  let entries2 := updEntry entries1 (Int.ofNat (numEntries - 1))
    (fun e => { e with nextInChain := -1 })
  { numEntries := numEntries,
    hashTable := List.replicate (2 * numEntries) (-1),
    entries := entries2,
    free := 0,
    size := 0 }

/-- The entry indices on the free list, walked with bounded fuel. -/
def freeChainAux {α : Type} (entries : List (HSEntry α)) : Int → Nat → List Nat
  | _, 0 => []
  | i, fuel + 1 =>
    if 0 ≤ i then
      match entries[i.toNat]? with
      | none => []
      | some e => i.toNat :: freeChainAux entries e.nextInChain fuel
    else []

def HashedSet.freeChain {α : Type} (s : HashedSet α) : List Nat :=
  freeChainAux s.entries s.free (s.entries.length + 1)

-- ## Visit tracker (ChunkManagerImpl.cc lines 337-343)

/-- Modelled from the spec: the `Visit` entry type is declared in
ChunkManagerImpl.h, which is not among the sources at hand.  Spec section
3: a visit is `{ id, failed : bool }`, created in-flight (not failed) by
`registerVisit` and marked failed by `failVisit`.  The failed flag is the
payload of the tracker's entries; the id lives in the `HSEntry`. -/
structure VisitData where
  failed : Bool
deriving DecidableEq, Repr

/-- `VisitTracker` is `HashedSet<Visit, MAX_VISITS_IN_FLIGHT>`. -/
abbrev VisitSet := HashedSet VisitData

def visitDflt : VisitData := ⟨false⟩

def dfltVisitEntry : HSEntry VisitData := ⟨-1, -1, visitDflt⟩

/-- `VisitTracker::isValid`, ChunkManagerImpl.cc lines 337-343: the visit
is found and not failed. -/
def VisitTracker.isValid (s : VisitSet) (visitId : Int) : Bool :=
  match s.find visitId with
  | none => false
  | some i => ! (s.entries.getD i dfltVisitEntry).val.failed

/-- C7 at the failing input: a `HashedSet` of capacity 2 is constructed
over memory whose entries both carry id 7.  Afterwards both entries sit
on the free list (`free = 0 → 1`), entry 0 got id −1, but entry 1 — whose
id the constructor body never writes — still carries id 7 ≠ −1, so a free
entry fails the "free iff id = −1" invariant immediately after the
constructor runs. -/
theorem hashedSet_init_last_id_bug :
    (HashedSet.init 2 [⟨7, 0, visitDflt⟩, ⟨7, 0, visitDflt⟩]).freeChain
      = [0, 1]
    ∧ ((HashedSet.init 2
        [⟨7, 0, visitDflt⟩, ⟨7, 0, visitDflt⟩]).entries.getD 1
          dfltVisitEntry).id = 7
    ∧ ((HashedSet.init 2
        [⟨7, 0, visitDflt⟩, ⟨7, 0, visitDflt⟩]).entries.getD 0
          dfltVisitEntry).id = -1
    ∧ (HashedSet.init 2
        [⟨7, 0, visitDflt⟩, ⟨7, 0, visitDflt⟩]).size = 0 := by
  decide

-- ## Chunk descriptors and the SubManager (ChunkManagerImpl.cc lines 398-543)

/-- Modelled from the spec plus the field uses in ChunkManagerImpl.cc:
the `ChunkDescriptor` payload (its declaration lives in
ChunkManagerImpl.h, which is not among the sources at hand).  Spec
section 3: `ownerVisit` (`_visitId`), `usable`, the `interestedParties`
FIFO, and the block bookkeeping `blocks[]`, `numBlocks`, `nextBlock`,
`size`, `delta`.  A default-constructed descriptor (the placement-new in
`findOrInsert`) has an empty interested-parties FIFO (the `Fifo`
constructor clears it) and no blocks (spec section 4.H: block allocation
is deferred, `blocks[]` starts empty); `createOrRegisterInterest`
overwrites `visitId` and `usable` right after insertion. -/
structure ChunkData where
  visitId : Int
  usable : Bool
  interestedParties : Fifo
  blocks : List Nat
  numBlocks : Nat
  nextBlock : Nat
  size : Nat
  delta : Nat
deriving DecidableEq, Repr

def chunkDflt (ipCap : Nat) : ChunkData :=
  { visitId := 0, usable := false,
    interestedParties := Fifo.init ipCap (List.replicate ipCap 0),
    blocks := [], numBlocks := 0, nextBlock := 0, size := 0, delta := 0 }

def dfltChunkEntry (ipCap : Nat) : HSEntry ChunkData := ⟨-1, -1, chunkDflt ipCap⟩

/-- The chunk sub-manager state: the `HashedSet` of descriptors and the
block allocator.  `ipCap` is the `INTERESTED_PARTIES_CAPACITY` trait used
when default-constructing descriptors. -/
structure SubManager where
  chunks : HashedSet ChunkData
  alloc : BlockAllocator
  ipCap : Nat
deriving DecidableEq, Repr

/-- The descriptor slot a chunk handle points at. -/
def SubManager.descr (m : SubManager) (c : Nat) : HSEntry ChunkData :=
  m.chunks.entries.getD c (dfltChunkEntry m.ipCap)

/-- `Chunk::getVisitId` through a handle: reads `_visitId`. -/
def SubManager.visitIdOf (m : SubManager) (c : Nat) : Int :=
  (m.descr c).val.visitId

/-- `Chunk::isUsable` through a handle: reads `_usable`. -/
def SubManager.usableOf (m : SubManager) (c : Nat) : Bool :=
  (m.descr c).val.usable

/-- Update the payload of descriptor slot `c`. -/
def SubManager.updChunk (m : SubManager) (c : Nat)
    (f : ChunkData → ChunkData) : SubManager :=
  { m with chunks := { m.chunks with
      entries := updEntry m.chunks.entries (Int.ofNat c)
        (fun e => { e with val := f e.val }) } }

/-- Modelled from the spec: `Chunk::clear` is defined in Chunk.cc, which
is not among the sources at hand; spec section 4.J: "clear (drop all
blocks back to the allocator; used on hand-off-with-reread)".  It frees
every block of the descriptor to the block allocator and empties the
descriptor's block bookkeeping. -/
def SubManager.clearChunk (m : SubManager) (c : Nat) : SubManager :=
  let d := (m.descr c).val
  let fr := m.alloc.free d.blocks d.numBlocks
  let m1 := { m with alloc := fr.1 }
  m1.updChunk c (fun d => { d with
    blocks := [], numBlocks := 0, nextBlock := 0, size := 0, delta := 0 })

/-- Modelled from the spec: `Chunk::commit` and `Chunk::rollback` are
defined in Chunk.cc, which is not among the sources at hand; spec section
4.J: they "operate on the descriptor's delta region (`size`, `delta`,
`nextBlock`)", are opaque and synchronous, and neither allocate nor free
blocks nor touch ownership fields.  They are therefore parameters of the
embedding, acting on that triple. -/
structure DeltaOps where
  commitFn : Nat × Nat × Nat → Nat × Nat × Nat
  rollbackFn : Nat × Nat × Nat → Nat × Nat × Nat

/-- Apply a delta-region operation to descriptor slot `c`. -/
def SubManager.applyDelta (m : SubManager) (c : Nat)
    (fn : Nat × Nat × Nat → Nat × Nat × Nat) : SubManager :=
  m.updChunk c (fun d =>
    let t := fn (d.size, d.delta, d.nextBlock)
    { d with size := t.1, delta := t.2.1, nextBlock := t.2.2 })

/-- Observable actions of `relinquishOwnership`, in program order, for
stating in which order the owner update and the commit/rollback occur. -/
inductive Event where
  | setOwner (chunkIdx : Nat) (visit : Int)
  | commitEv (chunkIdx : Nat)
  | rollbackEv (chunkIdx : Nat)
  | freeBlocksEv (chunkIdx : Nat)
  | eraseEv (chunkIdx : Nat) (chunkId : Int)
deriving DecidableEq, Repr

/-- The head-drain loop of `relinquishOwnership` (lines 519-527): dequeue
until the queue is empty or a dequeued id is a valid visit; returns the
successor (if any) and the drained queue.  `fuel` is the queue size
(each `dequeue` shrinks it by one). -/
def drainQueue (tracker : VisitSet) : Fifo → Nat → Option Int × Fifo
  | f, 0 => (none, f)
  | f, fuel + 1 =>
    if f.isEmpty then (none, f)
    else
      match f.dequeue with
      | .error _ => (none, f)
      | .ok (x, f') =>
        if VisitTracker.isValid tracker x then (some x, f')
        else drainQueue tracker f' fuel

/-- One iteration of `relinquishOwnership`'s descriptor scan (lines
516-541), for the descriptor slot `idx`:
`if (i->getId() != -1 && i->_visitId == visitId)` drain the queue; on a
valid successor set `_visitId` (then `commit`/`rollback` after the
loop); otherwise free the blocks and erase the descriptor. -/
def relinquishOne (ops : DeltaOps) (tracker : VisitSet) (visitId : Int)
    (rollback : Bool) (acc : SubManager × Bool × List Event) (idx : Nat) :
    SubManager × Bool × List Event :=
  let m := acc.1
  match m.chunks.entries[idx]? with
  | none => acc
  | some e =>
    if e.id ≠ -1 ∧ e.val.visitId = visitId then
      let dr := drainQueue tracker e.val.interestedParties
        e.val.interestedParties.size
      let m1 := m.updChunk idx (fun d => { d with interestedParties := dr.2 })
      match dr.1 with
      | some nxt =>
        let m2 := m1.updChunk idx (fun d => { d with visitId := nxt })
        let m3 := if rollback then m2.applyDelta idx ops.rollbackFn
          else m2.applyDelta idx ops.commitFn
        (m3, true,
         acc.2.2 ++ [Event.setOwner idx nxt,
           if rollback then Event.rollbackEv idx else Event.commitEv idx])
      | none =>
        let fr := m1.alloc.free e.val.blocks e.val.numBlocks
        let m2 := { m1 with alloc := fr.1 }
        let er := m2.chunks.erase e.id
        ({ m2 with chunks := er.2 }, acc.2.1,
         acc.2.2 ++ [Event.freeBlocksEv idx, Event.eraseEv idx e.id])
    else acc

/-- `SubManager::relinquishOwnership`, ChunkManagerImpl.cc lines 508-543:
scans every descriptor slot in array order, hands each chunk owned by the
visit to its first still-valid interested party (rolling back or
committing it), and frees and erases chunks with no valid successor.
Returns whether any chunk changed hands, the post-state, and the trace of
observable actions in program order. -/
def SubManager.relinquishOwnership (ops : DeltaOps) (m : SubManager)
    (visitId : Int) (rollback : Bool) (tracker : VisitSet) :
    Bool × SubManager × List Event :=
  let r := (List.range m.chunks.entries.length).foldl
    (relinquishOne ops tracker visitId rollback) (m, false, [])
  (r.2.1, r.1, r.2.2)

/-- The chunk-id loop of `SubManager::createOrRegisterInterest` (lines
405-422): new descriptors get the visit as owner (`toRead`), existing
ones enqueue the visit (`toWaitFor`); `findOrInsert` exhaustion throws
`std::bad_alloc` and a full FIFO throws `LengthError`.  The mutated state
is returned alongside the outcome — a C++ exception does not undo prior
mutation. -/
def corLoop (visitId : Int) :
    SubManager → List Nat → List Nat → List Int →
    Except Err Unit × SubManager × List Nat × List Nat
  | m, toRead, toWaitFor, [] => (.ok (), m, toRead, toWaitFor)
  | m, toRead, toWaitFor, cid :: rest =>
    let p := m.chunks.findOrInsert (chunkDflt m.ipCap) cid
    let m1 := { m with chunks := p.2 }
    if p.1.2 then
      match p.1.1 with
      | none => (.error .badAlloc, m1, toRead, toWaitFor)
      | some i =>
        let m2 := m1.updChunk i
          (fun d => { d with visitId := visitId, usable := false })
        corLoop visitId m2 (toRead ++ [i]) toWaitFor rest
    else
      match p.1.1 with
      | none =>
        -- `assert(p.first != 0)`: unreachable, a found entry is non-null
        (.error .badAlloc, m1, toRead, toWaitFor)
      | some i =>
        match (m1.descr i).val.interestedParties.enqueue visitId with
        | .error err => (.error err, m1, toRead, toWaitFor)
        | .ok f' =>
          let m2 := m1.updChunk i (fun d => { d with interestedParties := f' })
          corLoop visitId m2 toRead (toWaitFor ++ [i]) rest

/-- `SubManager::createOrRegisterInterest`, lines 398-423. -/
def SubManager.createOrRegisterInterest (m : SubManager) (visitId : Int)
    (chunkIds : List Int) :
    Except Err Unit × SubManager × List Nat × List Nat :=
  corLoop visitId m [] [] chunkIds

/-- The scan loop of `SubManager::checkForOwnership` (lines 447-466),
with the `O(1)` swap-remove (`--size; if (i < size) v[i] = v[size];
v.pop_back()`; when `i` lands on the last element the unconditional
set-then-dropLast below coincides with the plain `pop_back`).  Each
iteration advances `i` or shrinks the list, so the iteration count is
bounded by the initial length; `fuel` covers it. -/
def checkLoop (visitId : Int) :
    SubManager → List Nat → List Nat → Nat → Nat →
    SubManager × List Nat × List Nat
  | m, toRead, toWaitFor, _, 0 => (m, toRead, toWaitFor)
  | m, toRead, toWaitFor, i, fuel + 1 =>
    if i < toWaitFor.length then
      let c := toWaitFor.getD i 0
      if m.visitIdOf c ≠ visitId then
        checkLoop visitId m toRead toWaitFor (i + 1) fuel
      else
        let s := if ! m.usableOf c then (m.clearChunk c, toRead ++ [c])
          else (m, toRead)
        let toWaitFor' :=
          (toWaitFor.set i (toWaitFor.getD (toWaitFor.length - 1) 0)).dropLast
        checkLoop visitId s.1 s.2 toWaitFor' i fuel
    else (m, toRead, toWaitFor)

/-- `SubManager::checkForOwnership`, lines 441-468: removes from
`toWaitFor` the chunks now owned by the visit, clears and appends to
`toRead` those of them that are not usable, and reports whether
`toWaitFor` is empty afterwards. -/
def SubManager.checkForOwnership (m : SubManager)
    (toRead toWaitFor : List Nat) (visitId : Int) :
    Bool × SubManager × List Nat × List Nat :=
  let r := checkLoop visitId m toRead toWaitFor 0 (2 * toWaitFor.length + 1)
  (r.2.2.isEmpty, r.1, r.2.1, r.2.2)

-- ## ChunkManagerSingleImpl facade (ChunkManagerImpl.cc lines 685-864)

/-- The manager state: the visit tracker and the chunk sub-manager.  The
mutex and condition have no sequential content; whether `notifyAll` was
invoked is reported in results. -/
structure ChunkManager where
  visits : VisitSet
  data : SubManager
deriving DecidableEq, Repr

/-- `ChunkManagerSingleImpl::endVisit`, lines 848-864: compute the
effective rollback (`rollback || !isValid`), erase the visit (returning
`false` if it was not there), relinquish chunk ownership, `notifyAll`
iff any chunk changed hands, and return `!roll`.  Result:
`(returnValue, post-state, notifyAll invoked)`. -/
def ChunkManager.endVisit (ops : DeltaOps) (m : ChunkManager)
    (visitId : Int) (rollback : Bool) : Bool × ChunkManager × Bool :=
  let roll := rollback || ! VisitTracker.isValid m.visits visitId
  let er := m.visits.erase visitId
  if ! er.1 then
    (false, { m with visits := er.2 }, false)
  else
    let r := SubManager.relinquishOwnership ops m.data visitId roll er.2
    (! roll, { visits := er.2, data := r.2.1 }, r.1)

/-- `ChunkManagerSingleImpl::startVisit`, lines 748-776: the output
vectors start cleared and reserved; under the lock the descriptor-space
and visit-validity pre-checks run, then the call delegates to
`createOrRegisterInterest`. -/
def ChunkManager.startVisit (m : ChunkManager) (visitId : Int)
    (chunkIds : List Int) :
    Except Err Unit × ChunkManager × List Nat × List Nat :=
  if m.data.chunks.space < chunkIds.length then
    (.error .lengthError, m, [], [])
  else if ! VisitTracker.isValid m.visits visitId then
    (.error .invalidParameter, m, [], [])
  else
    let r := m.data.createOrRegisterInterest visitId chunkIds
    (r.1, { m with data := r.2.1 }, r.2.2.1, r.2.2.2)

/-- `VisitTracker`'s failure marking, as `ChunkManagerSingleImpl::failVisit`
(lines 703-710) performs it under the lock: find, and set the failed flag
if present (no-op if unknown). -/
def VisitTracker.markFailed (s : VisitSet) (visitId : Int) : VisitSet :=
  match s.find visitId with
  | none => s
  | some i =>
    { s with
      entries := updEntry s.entries (Int.ofNat i)
        (fun e => { e with val := ⟨true⟩ }) }

-- ## C3: endVisit

/-- C3: `endVisit(visitId, rollback)` returns `false` leaving the state
unchanged when no visit with that id exists; otherwise the effective
rollback is `rollback OR the visit's failed flag`, the visit is erased,
`relinquishOwnership` runs with the effective rollback, `notifyAll` is
invoked iff it reported a change, and `!roll` is returned — in
particular `endVisit(v, false)` on an invalid `v` behaves exactly as
`endVisit(v, true)`. -/
theorem endVisit_spec (ops : DeltaOps) (m : ChunkManager) (v : Int)
    (rb : Bool) :
    (m.visits.find v = none →
        ChunkManager.endVisit ops m v rb = (false, m, false))
    ∧ (∀ i, m.visits.find v = some i →
        (m.visits.erase v).1 = true
        ∧ ChunkManager.endVisit ops m v rb
            = (let roll := rb
                  || (m.visits.entries.getD i dfltVisitEntry).val.failed
               let visits' := (m.visits.erase v).2
               let r := SubManager.relinquishOwnership ops m.data v roll visits'
               (! roll, ⟨visits', r.2.1⟩, r.1)))
    ∧ (VisitTracker.isValid m.visits v = false →
        ChunkManager.endVisit ops m v false
          = ChunkManager.endVisit ops m v true) := by
  refine ⟨?_, ?_, ?_⟩
  · intro hf
    have her : m.visits.erase v = (false, m.visits) := by
      rw [HashedSet.erase]
      dsimp only
      rw [HashedSet.find] at hf
      rw [hf]
    rw [ChunkManager.endVisit]
    dsimp only
    rw [her]
    rfl
  · intro i hf
    have her1 : (m.visits.erase v).1 = true := by
      rw [HashedSet.erase]
      dsimp only
      rw [HashedSet.find] at hf
      rw [hf]
    refine ⟨her1, ?_⟩
    have hval : VisitTracker.isValid m.visits v
        = ! (m.visits.entries.getD i dfltVisitEntry).val.failed := by
      rw [VisitTracker.isValid, hf]
    rw [ChunkManager.endVisit]
    dsimp only
    rw [her1, hval, Bool.not_not]
    rfl
  · intro hv
    rw [ChunkManager.endVisit, ChunkManager.endVisit, hv]
    rfl

/-- Witness for C3 on a concrete manager: visit 9 is in flight but
failed, so `endVisit(9, rollback := false)` behaves exactly as
`endVisit(9, rollback := true)`. -/
theorem endVisit_spec_witness :
    (VisitTracker.markFailed
        ((HashedSet.init 4 (List.replicate 4 dfltVisitEntry)).insert
          visitDflt 9).2 9).find 9 = some 0
    ∧ (ChunkManager.endVisit ⟨fun t => t, fun t => t⟩
        ⟨VisitTracker.markFailed
          ((HashedSet.init 4 (List.replicate 4 dfltVisitEntry)).insert
            visitDflt 9).2 9,
         ⟨HashedSet.init 4 (List.replicate 4 (dfltChunkEntry 2)),
          ⟨3, 8, 4, 64, 0, [0]⟩, 2⟩⟩ 9 false)
      = (ChunkManager.endVisit ⟨fun t => t, fun t => t⟩
        ⟨VisitTracker.markFailed
          ((HashedSet.init 4 (List.replicate 4 dfltVisitEntry)).insert
            visitDflt 9).2 9,
         ⟨HashedSet.init 4 (List.replicate 4 (dfltChunkEntry 2)),
          ⟨3, 8, 4, 64, 0, [0]⟩, 2⟩⟩ 9 true) :=
  ⟨by decide,
   (endVisit_spec ⟨fun t => t, fun t => t⟩ _ 9 false).2.2 (by decide)⟩

-- ## Concrete states for evaluating the manager operations

/-- Delta operations that keep the delta region as is (any concrete
`Chunk::commit`/`Chunk::rollback` pair works for the statements below,
which only concern event order and bookkeeping fields). -/
def idOps : DeltaOps := ⟨fun t => t, fun t => t⟩

/-- An allocator over 8 blocks (one 8-bit word), all free. -/
def alloc8 : BlockAllocator := ⟨3, 8, 4, 64, 0, [0]⟩

/-- A sub-manager with 4 descriptor slots, no chunks, all blocks free. -/
def smBase (ipCap : Nat) : SubManager :=
  ⟨HashedSet.init 4 (List.replicate 4 (dfltChunkEntry ipCap)), alloc8, ipCap⟩

def vsBase : VisitSet := HashedSet.init 4 (List.replicate 4 dfltVisitEntry)

def vs5 : VisitSet := (vsBase.insert visitDflt 5).2

def vs57 : VisitSet := (vs5.insert visitDflt 7).2

def vs579 : VisitSet := (vs57.insert visitDflt 9).2

/-- Chunk 1 owned by visit 9, with visit 5 waiting in its
interested-parties queue. -/
def smC1 : SubManager :=
  (((smBase 2).createOrRegisterInterest 9 [1]).2.1.createOrRegisterInterest
    5 [1]).2.1

/-- Chunk 1 owned by visit 5 and chunk 2 owned by visit 9; the two chunk
ids hash to the same bucket, so descriptor 0 (chunk 1) links to
descriptor 1 (chunk 2) in its chain. -/
def smC10 : SubManager :=
  (((smBase 2).createOrRegisterInterest 5 [1]).2.1.createOrRegisterInterest
    9 [2]).2.1

/-- Chunk 1 owned by visit 5 with a FULL interested-parties queue
(capacity 1, holding visit 7). -/
def smC4 : SubManager :=
  (((smBase 1).createOrRegisterInterest 5 [1]).2.1.createOrRegisterInterest
    7 [1]).2.1

def cmC4 : ChunkManager := ⟨vs579, smC4⟩

-- ## C1: order of owner update and commit/rollback

/-- C1 fails as stated: in `smC1`, descriptor 0 (chunk 1) is owned by the
departing visit 9 and visit 5 is a valid successor; the observable trace
of `relinquishOwnership` is `[setOwner, commit]` — the owner update (line
522) happens strictly before the commit (line 533), and no commit
precedes the owner update anywhere in the trace. -/
theorem relinquishOwnership_order_cex :
    (smC1.descr 0).id = 1
    ∧ smC1.visitIdOf 0 = 9
    ∧ (SubManager.relinquishOwnership idOps smC1 9 false vs5).2.2
        = [Event.setOwner 0 5, Event.commitEv 0]
    ∧ ¬ ∃ i j : Fin 2, (i : Nat) < (j : Nat)
        ∧ [Event.setOwner 0 5, Event.commitEv 0].get i = Event.commitEv 0
        ∧ [Event.setOwner 0 5, Event.commitEv 0].get j
            = Event.setOwner 0 5 := by
  decide

-- ## C10: the frame of relinquishOwnership on other visits' descriptors

/-- C10 fails as stated: in `smC10`, descriptor 0 (chunk 1) belongs to
visit 5 ≠ 9, yet relinquishing visit 9's chunks erases descriptor 1
(chunk 2, same hash bucket) and rewrites descriptor 0's `_nextInChain`
field from 1 to −1. -/
theorem relinquishOwnership_frame_cex :
    (smC10.descr 0).id = 1
    ∧ (smC10.descr 0).val.visitId = 5
    ∧ ((5 : Int) = 9 → False)
    ∧ (smC10.descr 0).nextInChain = 1
    ∧ ((SubManager.relinquishOwnership idOps smC10 9 false
        vs5).2.1.descr 0).nextInChain = -1 := by
  decide

-- ## C4: exception safety of createOrRegisterInterest / startVisit

/-- C4 fails: in `cmC4` both pre-checks of `startVisit` pass (3 free
descriptors ≥ 2 requested, visit 9 valid), so it delegates to
`createOrRegisterInterest` with the duplicate-free list `[2, 1]`.  Chunk
2 is new: a descriptor is created and handed to visit 9.  Chunk 1 exists
with a full interested-parties queue: `Fifo::enqueue` throws
`LengthError`, which propagates out of the already-mutated manager — the
failed call leaves behind a new descriptor for chunk 2 owned by visit 9,
contradicting strong exception safety. -/
theorem startVisit_partial_mutation :
    smC4.chunks.find 2 = none
    ∧ (ChunkManager.startVisit cmC4 9 [2, 1]).1 = .error .lengthError
    ∧ (ChunkManager.startVisit cmC4 9 [2, 1]).2.1.data.chunks.find 2 = some 1
    ∧ (ChunkManager.startVisit cmC4 9 [2, 1]).2.1.data.visitIdOf 1 = 9
    ∧ (ChunkManager.startVisit cmC4 9 [2, 1]).2.1.data.chunks.size
        = smC4.chunks.size + 1 := by
  decide

-- ## Frame lemmas for detail::reset and BlockAllocator::free

theorem testBit_clear_ne (lg jm t w : Nat) (ht : t < 2 ^ lg) (hne : t ≠ jm) :
    (w &&& ((2 ^ 2 ^ lg - 1) ^^^ (1 <<< jm))).testBit t = w.testBit t := by
  rw [Nat.testBit_and, Nat.testBit_xor, Nat.testBit_two_pow_sub_one,
    Nat.one_shiftLeft, Nat.testBit_two_pow]
  rw [decide_eq_true ht, decide_eq_false (fun h => hne h.symm)]
  simp

/-- Clearing bit `j` leaves every other bit of the array alone. -/
theorem bitGet_resetStep (lg nb : Nat) (acc : List Nat × Bool) (j b : Nat)
    (hne : b ≠ j) :
    bitGet lg (resetStep lg nb acc j).1 b = bitGet lg acc.1 b := by
  have hpos : 0 < 2 ^ lg := Nat.pos_pow_of_pos _ (by norm_num)
  rw [resetStep]
  dsimp only
  by_cases hw : b >>> lg = j >>> lg
  · by_cases hlen : j >>> lg < acc.1.length
    · rw [bitGet, bitGet, hw]
      simp only [List.getD_eq_getElem?_getD]
      rw [List.getElem?_set_self hlen]
      simp only [Option.getD_some]
      have hbm : b &&& (2 ^ lg - 1) = b % 2 ^ lg := and_mask_eq_mod b lg
      have hjm : j &&& (2 ^ lg - 1) = j % 2 ^ lg := and_mask_eq_mod j lg
      have hdivb := Nat.div_add_mod b (2 ^ lg)
      have hdivj := Nat.div_add_mod j (2 ^ lg)
      have hw' : b / 2 ^ lg = j / 2 ^ lg := by
        rw [Nat.shiftRight_eq_div_pow, Nat.shiftRight_eq_div_pow] at hw
        exact hw
      have hne2 : b % 2 ^ lg ≠ j % 2 ^ lg := by
        intro h
        rw [hw'] at hdivb
        exact hne (by omega)
      rw [hbm, hjm]
      exact testBit_clear_ne lg _ _ _ (Nat.mod_lt _ hpos) hne2
    · rw [List.set_eq_of_length_le (le_of_not_lt hlen)]
  · rw [bitGet, bitGet]
    simp only [List.getD_eq_getElem?_getD]
    rw [List.getElem?_set_ne (fun h => hw h.symm)]

theorem resetFold_frame (lg nb b : Nat) :
    ∀ (idxs : List Nat) (acc : List Nat × Bool), b ∉ idxs →
      bitGet lg (idxs.foldl (resetStep lg nb) acc).1 b = bitGet lg acc.1 b := by
  intro idxs
  induction idxs with
  | nil => intro acc _; rfl
  | cons j rest ih =>
    intro acc hb
    rw [List.mem_cons, not_or] at hb
    rw [List.foldl_cons, ih _ hb.2, bitGet_resetStep lg nb acc j b hb.1]

/-- `detail::reset` changes no bit whose index is not listed. -/
theorem detailReset_frame (lg : Nat) (ws : List Nat) (idxs : List Nat)
    (nb b : Nat) (hb : b ∉ idxs) :
    bitGet lg (detailReset lg ws idxs nb).1 b = bitGet lg ws b :=
  resetFold_frame lg nb b idxs (ws, decide (0 < nb)) hb

/-- `BlockAllocator::free` changes no allocator bit outside the image of
the freed block offsets. -/
theorem free_bits_frame (a : BlockAllocator) (offs : List Nat) (n : Nat)
    (p : Nat)
    (hp : p ∉ (offs.take n).map (fun off => (off - a.offset) / a.blockSize)) :
    bitGet a.lg ((a.free offs n).1).bits p = bitGet a.lg a.bits p := by
  rw [BlockAllocator.free]
  exact detailReset_frame a.lg a.bits _ a.numBlocks p hp

theorem free_params (a : BlockAllocator) (offs : List Nat) (n : Nat) :
    (a.free offs n).1.lg = a.lg ∧ (a.free offs n).1.offset = a.offset
    ∧ (a.free offs n).1.blockSize = a.blockSize := ⟨rfl, rfl, rfl⟩

-- ## Entry projections and the footprint of HashedSet::erase

/-- The id stored at an entry index (−1 for an out-of-range index, which
is also the id of a free entry in a well-formed state). -/
def entryIdAt {α : Type} (entries : List (HSEntry α)) (i : Nat) : Int :=
  match entries[i]? with
  | some e => e.id
  | none => -1

/-- The id and payload stored at an entry index — everything of a
descriptor except the intrusive chain link. -/
def sigAt {α : Type} (entries : List (HSEntry α)) (i : Nat) :
    Option (Int × α) :=
  (entries[i]?).map (fun e => (e.id, e.val))

/-- No two allocated entries share an id — the invariant a `HashedSet`
maintains (`insert`/`findOrInsert` refuse duplicate ids). -/
def idsDistinct {α : Type} (entries : List (HSEntry α)) : Prop :=
  ∀ i, i < entries.length → ∀ j, j < entries.length → i ≠ j →
    entryIdAt entries i ≠ -1 → entryIdAt entries i ≠ entryIdAt entries j

/-- The chain walk only ever reports an index holding the id it was
asked for. -/
theorem chainLocate_found {α : Type} (entries : List (HSEntry α)) (id : Int) :
    ∀ (fuel : Nat) (i last : Int) (k : Nat),
      (chainLocate entries id i last fuel).1 = some k →
      ∃ e, entries[k]? = some e ∧ e.id = id := by
  intro fuel
  induction fuel with
  | zero => intro i last k h; simp [chainLocate] at h
  | succ f ih =>
    intro i last k h
    rw [chainLocate] at h
    by_cases h0 : 0 ≤ i
    · rw [if_pos h0] at h
      cases he : entries[i.toNat]? with
      | none => rw [he] at h; simp at h
      | some e =>
        rw [he] at h
        dsimp only at h
        by_cases hid : id = e.id
        · rw [if_pos hid] at h
          simp only [Option.some.injEq] at h
          exact ⟨e, h ▸ he, hid.symm⟩
        · rw [if_neg hid] at h
          exact ih _ _ _ h
    · rw [if_neg h0] at h
      simp at h

theorem updEntry_length {α : Type} (es : List (HSEntry α)) (i : Int)
    (f : HSEntry α → HSEntry α) : (updEntry es i f).length = es.length := by
  rw [updEntry]
  by_cases h0 : 0 ≤ i
  · rw [if_pos h0]
    cases h : es[i.toNat]? with
    | some e => simp
    | none => rfl
  · rw [if_neg h0]

theorem toNat_ne_of_ofNat_ne {i : Int} {k : Nat} (h0 : 0 ≤ i)
    (hk : Int.ofNat k ≠ i) : i.toNat ≠ k := by
  intro hEq
  apply hk
  show (k : Int) = i
  rw [← hEq]
  exact Int.toNat_of_nonneg h0

theorem updEntry_getElem_ne {α : Type} (es : List (HSEntry α)) (i : Int)
    (f : HSEntry α → HSEntry α) (k : Nat) (hk : Int.ofNat k ≠ i) :
    (updEntry es i f)[k]? = es[k]? := by
  rw [updEntry]
  by_cases h0 : 0 ≤ i
  · rw [if_pos h0]
    cases h : es[i.toNat]? with
    | some e => exact List.getElem?_set_ne (toNat_ne_of_ofNat_ne h0 hk)
    | none => rfl
  · rw [if_neg h0]

/-- Relinking a chain pointer keeps the signature of every index. -/
theorem sigAt_updEntry_next {α : Type} (es : List (HSEntry α)) (i : Int)
    (x : Int) (k : Nat) :
    sigAt (updEntry es i (fun e => { e with nextInChain := x })) k
      = sigAt es k := by
  rw [sigAt, sigAt, updEntry]
  by_cases h0 : 0 ≤ i
  · rw [if_pos h0]
    cases h : es[i.toNat]? with
    | none => rfl
    | some e =>
      by_cases hk : i.toNat = k
      · subst hk
        have hlt : i.toNat < es.length := by
          by_contra hge
          rw [List.getElem?_eq_none (le_of_not_lt hge)] at h
          exact absurd h (by simp)
        rw [List.getElem?_set_self hlt, h]
        simp
      · rw [List.getElem?_set_ne hk]
  · rw [if_neg h0]

theorem sigAt_updEntry_ne {α : Type} (es : List (HSEntry α)) (i : Int)
    (f : HSEntry α → HSEntry α) (k : Nat) (hk : Int.ofNat k ≠ i) :
    sigAt (updEntry es i f) k = sigAt es k := by
  rw [sigAt, sigAt, updEntry_getElem_ne es i f k hk]

theorem entryIdAt_updEntry_next {α : Type} (es : List (HSEntry α)) (i : Int)
    (x : Int) (k : Nat) :
    entryIdAt (updEntry es i (fun e => { e with nextInChain := x })) k
      = entryIdAt es k := by
  rw [entryIdAt, entryIdAt, updEntry]
  by_cases h0 : 0 ≤ i
  · rw [if_pos h0]
    cases h : es[i.toNat]? with
    | none => rfl
    | some e =>
      by_cases hk : i.toNat = k
      · subst hk
        have hlt : i.toNat < es.length := by
          by_contra hge
          rw [List.getElem?_eq_none (le_of_not_lt hge)] at h
          exact absurd h (by simp)
        rw [List.getElem?_set_self hlt, h]
      · rw [List.getElem?_set_ne hk]
  · rw [if_neg h0]

/-- Updating only the payload at an index keeps every id. -/
theorem entryIdAt_updEntry_val {α : Type} (es : List (HSEntry α)) (i : Int)
    (g : α → α) (k : Nat) :
    entryIdAt (updEntry es i (fun e => { e with val := g e.val })) k
      = entryIdAt es k := by
  rw [entryIdAt, entryIdAt, updEntry]
  by_cases h0 : 0 ≤ i
  · rw [if_pos h0]
    cases h : es[i.toNat]? with
    | none => rfl
    | some e =>
      by_cases hk : i.toNat = k
      · subst hk
        have hlt : i.toNat < es.length := by
          by_contra hge
          rw [List.getElem?_eq_none (le_of_not_lt hge)] at h
          exact absurd h (by simp)
        rw [List.getElem?_set_self hlt, h]
      · rw [List.getElem?_set_ne hk]
  · rw [if_neg h0]

theorem erase_entries_length {α : Type} (s : HashedSet α) (id : Int) :
    (s.erase id).2.entries.length = s.entries.length := by
  rw [HashedSet.erase]
  cases hw : (chainLocate s.entries id
      (s.hashTable.getD (s.bucketOf id) (-1)) (-1) (s.entries.length + 1)).1
    with
  | none => rfl
  | some i =>
    dsimp only
    rw [updEntry_length]
    by_cases hlt : (chainLocate s.entries id
        (s.hashTable.getD (s.bucketOf id) (-1)) (-1)
        (s.entries.length + 1)).2 < 0
    · rw [if_pos hlt]
    · rw [if_neg hlt, updEntry_length]

/-- `erase` leaves the id and payload of every entry holding a different
id untouched (only the chain link of the unlinked entry's predecessor,
and the erased entry itself, are written). -/
theorem erase_sig {α : Type} (s : HashedSet α) (id : Int) (k : Nat)
    (hne : entryIdAt s.entries k ≠ id) :
    sigAt (s.erase id).2.entries k = sigAt s.entries k := by
  rw [HashedSet.erase]
  cases hw : (chainLocate s.entries id
      (s.hashTable.getD (s.bucketOf id) (-1)) (-1) (s.entries.length + 1)).1
    with
  | none => rfl
  | some i =>
    dsimp only
    obtain ⟨e, he, heid⟩ := chainLocate_found s.entries id _ _ _ _ hw
    have hki : k ≠ i := by
      intro hEq
      subst hEq
      rw [entryIdAt, he] at hne
      exact hne heid
    rw [sigAt_updEntry_ne _ _ _ k (fun hc => hki (Int.ofNat.inj hc))]
    by_cases hlt : (chainLocate s.entries id
        (s.hashTable.getD (s.bucketOf id) (-1)) (-1)
        (s.entries.length + 1)).2 < 0
    · rw [if_pos hlt]
    · rw [if_neg hlt, sigAt_updEntry_next]

theorem entryIdAt_updEntry_ne {α : Type} (es : List (HSEntry α)) (i : Int)
    (f : HSEntry α → HSEntry α) (k : Nat) (hk : Int.ofNat k ≠ i) :
    entryIdAt (updEntry es i f) k = entryIdAt es k := by
  rw [entryIdAt, entryIdAt, updEntry_getElem_ne es i f k hk]

/-- An in-range update writing id −1 leaves id −1 at that index (also
when the index is out of range, where `entryIdAt` is −1 by
convention). -/
theorem entryIdAt_updEntry_minus1 {α : Type} (es : List (HSEntry α))
    (f : HSEntry α → HSEntry α) (hf : ∀ e, (f e).id = -1) (k : Nat) :
    entryIdAt (updEntry es (Int.ofNat k) f) k = -1 := by
  rw [updEntry, if_pos (by exact Int.natCast_nonneg k)]
  have htn : (Int.ofNat k).toNat = k := rfl
  rw [htn]
  cases h : es[k]? with
  | none => rw [entryIdAt, h]
  | some e =>
    have hlt : k < es.length := by
      by_contra hge
      rw [List.getElem?_eq_none (le_of_not_lt hge)] at h
      exact absurd h (by simp)
    rw [entryIdAt, List.getElem?_set_self hlt]
    exact hf e

/-- After `erase`, the id at each index is either what it was or −1 (the
erased slot). -/
theorem erase_id_or {α : Type} (s : HashedSet α) (id : Int) (k : Nat) :
    entryIdAt (s.erase id).2.entries k = entryIdAt s.entries k
    ∨ entryIdAt (s.erase id).2.entries k = -1 := by
  rw [HashedSet.erase]
  cases hw : (chainLocate s.entries id
      (s.hashTable.getD (s.bucketOf id) (-1)) (-1) (s.entries.length + 1)).1
    with
  | none => exact Or.inl rfl
  | some i =>
    dsimp only
    by_cases hki : k = i
    · subst hki
      exact Or.inr (entryIdAt_updEntry_minus1 _ _ (fun e => rfl) k)
    · refine Or.inl ?_
      rw [entryIdAt_updEntry_ne _ _ _ k (fun hc => hki (Int.ofNat.inj hc))]
      by_cases hlt : (chainLocate s.entries id
          (s.hashTable.getD (s.bucketOf id) (-1)) (-1)
          (s.entries.length + 1)).2 < 0
      · rw [if_pos hlt]
      · rw [if_neg hlt, entryIdAt_updEntry_next]

/-- `erase` preserves distinctness of allocated ids. -/
theorem idsDistinct_erase {α : Type} (s : HashedSet α) (id : Int)
    (h : idsDistinct s.entries) : idsDistinct (s.erase id).2.entries := by
  intro i hi j hj hij hIdI
  rw [erase_entries_length] at hi hj
  rcases erase_id_or s id i with hEi | hEi
  · rcases erase_id_or s id j with hEj | hEj
    · rw [hEi, hEj]
      rw [hEi] at hIdI
      exact h i hi j hj hij hIdI
    · rw [hEi] at hIdI
      rw [hEi, hEj]
      exact hIdI
  · exact absurd hEi hIdI

-- ## The footprint of one relinquishOwnership iteration

theorem sigAt_updChunk_ne (m : SubManager) (c : Nat) (f : ChunkData → ChunkData)
    (k : Nat) (hk : k ≠ c) :
    sigAt (m.updChunk c f).chunks.entries k = sigAt m.chunks.entries k := by
  rw [SubManager.updChunk]
  exact sigAt_updEntry_ne _ _ _ k (fun hc => hk (Int.ofNat.inj hc))

theorem sigAt_updChunk_self (m : SubManager) (c : Nat)
    (f : ChunkData → ChunkData) :
    sigAt (m.updChunk c f).chunks.entries c
      = (sigAt m.chunks.entries c).map (fun s => (s.1, f s.2)) := by
  rw [SubManager.updChunk]
  dsimp only
  rw [sigAt, sigAt, updEntry, if_pos (by exact Int.natCast_nonneg c)]
  have htn : (Int.ofNat c).toNat = c := rfl
  rw [htn]
  cases h : m.chunks.entries[c]? with
  | none =>
    dsimp only
    rw [h]
    rfl
  | some e =>
    have hlt : c < m.chunks.entries.length := by
      by_contra hge
      rw [List.getElem?_eq_none (le_of_not_lt hge)] at h
      exact absurd h (by simp)
    rw [List.getElem?_set_self hlt]
    rfl

theorem entryIdAt_updChunk (m : SubManager) (c : Nat)
    (f : ChunkData → ChunkData) (k : Nat) :
    entryIdAt (m.updChunk c f).chunks.entries k
      = entryIdAt m.chunks.entries k := by
  rw [SubManager.updChunk]
  dsimp only
  exact entryIdAt_updEntry_val _ _ _ k

theorem updChunk_length (m : SubManager) (c : Nat)
    (f : ChunkData → ChunkData) :
    (m.updChunk c f).chunks.entries.length = m.chunks.entries.length := by
  rw [SubManager.updChunk]
  dsimp only
  exact updEntry_length _ _ _

theorem idsDistinct_updChunk (m : SubManager) (c : Nat)
    (f : ChunkData → ChunkData) (h : idsDistinct m.chunks.entries) :
    idsDistinct (m.updChunk c f).chunks.entries := by
  intro i hi j hj hij hIdI
  rw [updChunk_length] at hi hj
  rw [entryIdAt_updChunk] at hIdI ⊢
  rw [entryIdAt_updChunk]
  exact h i hi j hj hij hIdI

/-- `applyDelta` is an `updChunk`. -/
theorem applyDelta_eq_updChunk (m : SubManager) (c : Nat)
    (fn : Nat × Nat × Nat → Nat × Nat × Nat) :
    m.applyDelta c fn = m.updChunk c (fun d =>
      { d with size := (fn (d.size, d.delta, d.nextBlock)).1,
               delta := (fn (d.size, d.delta, d.nextBlock)).2.1,
               nextBlock := (fn (d.size, d.delta, d.nextBlock)).2.2 }) := rfl

/-- An iteration whose guard fails (no entry, free slot, or another
visit's chunk) does nothing. -/
theorem relinquishOne_skip (ops : DeltaOps) (tracker : VisitSet) (v : Int)
    (rb : Bool) (acc : SubManager × Bool × List Event) (j : Nat)
    (h : ∀ e, acc.1.chunks.entries[j]? = some e →
      e.id = -1 ∨ e.val.visitId ≠ v) :
    relinquishOne ops tracker v rb acc j = acc := by
  rw [relinquishOne]
  cases he : acc.1.chunks.entries[j]? with
  | none => rfl
  | some e =>
    dsimp only
    rcases h e he with hc | hc
    · rw [if_neg (by simp [hc])]
    · rw [if_neg (by simp [hc])]

/-- One iteration of the relinquish scan preserves id-distinctness, the
entry count, the allocator geometry and `ipCap`, touches no other slot's
id or payload, and only appends to the event trace. -/
theorem relinquishOne_invar (ops : DeltaOps) (tracker : VisitSet) (v : Int)
    (rb : Bool) (acc : SubManager × Bool × List Event) (j : Nat)
    (hdist : idsDistinct acc.1.chunks.entries) :
    idsDistinct (relinquishOne ops tracker v rb acc j).1.chunks.entries
    ∧ (relinquishOne ops tracker v rb acc j).1.chunks.entries.length
        = acc.1.chunks.entries.length
    ∧ (relinquishOne ops tracker v rb acc j).1.alloc.lg = acc.1.alloc.lg
    ∧ (relinquishOne ops tracker v rb acc j).1.alloc.offset
        = acc.1.alloc.offset
    ∧ (relinquishOne ops tracker v rb acc j).1.alloc.blockSize
        = acc.1.alloc.blockSize
    ∧ (relinquishOne ops tracker v rb acc j).1.ipCap = acc.1.ipCap
    ∧ (∀ k, k ≠ j →
        sigAt (relinquishOne ops tracker v rb acc j).1.chunks.entries k
          = sigAt acc.1.chunks.entries k)
    ∧ (∃ t, (relinquishOne ops tracker v rb acc j).2.2 = acc.2.2 ++ t) := by
  rw [relinquishOne]
  cases he : acc.1.chunks.entries[j]? with
  | none =>
    exact ⟨hdist, rfl, rfl, rfl, rfl, rfl, fun k _ => rfl,
      ⟨[], (List.append_nil _).symm⟩⟩
  | some e =>
    dsimp only
    by_cases hg : e.id ≠ -1 ∧ e.val.visitId = v
    · rw [if_pos hg]
      cases hdr : (drainQueue tracker e.val.interestedParties
          e.val.interestedParties.size).1 with
      | some nxt =>
        dsimp only
        cases rb with
        | false =>
          simp only [Bool.false_eq_true, if_false]
          refine ⟨?_, ?_, rfl, rfl, rfl, rfl, ?_, ⟨_, rfl⟩⟩
          · rw [applyDelta_eq_updChunk]
            exact idsDistinct_updChunk _ _ _ (idsDistinct_updChunk _ _ _
              (idsDistinct_updChunk _ _ _ hdist))
          · rw [applyDelta_eq_updChunk, updChunk_length, updChunk_length,
              updChunk_length]
          · intro k hk
            rw [applyDelta_eq_updChunk, sigAt_updChunk_ne _ _ _ _ hk,
              sigAt_updChunk_ne _ _ _ _ hk, sigAt_updChunk_ne _ _ _ _ hk]
        | true =>
          simp only [eq_self_iff_true, if_true]
          refine ⟨?_, ?_, rfl, rfl, rfl, rfl, ?_, ⟨_, rfl⟩⟩
          · rw [applyDelta_eq_updChunk]
            exact idsDistinct_updChunk _ _ _ (idsDistinct_updChunk _ _ _
              (idsDistinct_updChunk _ _ _ hdist))
          · rw [applyDelta_eq_updChunk, updChunk_length, updChunk_length,
              updChunk_length]
          · intro k hk
            rw [applyDelta_eq_updChunk, sigAt_updChunk_ne _ _ _ _ hk,
              sigAt_updChunk_ne _ _ _ _ hk, sigAt_updChunk_ne _ _ _ _ hk]
      | none =>
        dsimp only
        have hjlen : j < acc.1.chunks.entries.length := by
          by_contra hge
          rw [List.getElem?_eq_none (le_of_not_lt hge)] at he
          exact absurd he (by simp)
        have hdist1 : idsDistinct ((acc.1.updChunk j
            (fun d => { d with interestedParties := (drainQueue tracker
              e.val.interestedParties e.val.interestedParties.size).2 })).chunks.entries) :=
          idsDistinct_updChunk _ _ _ hdist
        have hne : ∀ k, k ≠ j →
            entryIdAt ((acc.1.updChunk j
              (fun d => { d with interestedParties := (drainQueue tracker
                e.val.interestedParties e.val.interestedParties.size).2 })).chunks.entries) k
              ≠ e.id := by
          intro k hk
          rw [entryIdAt_updChunk]
          by_cases hklen : k < acc.1.chunks.entries.length
          · by_cases hidk : entryIdAt acc.1.chunks.entries k = -1
            · rw [hidk]
              exact fun hc => hg.1 hc.symm
            · have hj : entryIdAt acc.1.chunks.entries j = e.id := by
                rw [entryIdAt, he]
              have := hdist k hklen j hjlen hk hidk
              rw [hj] at this
              exact this
          · rw [entryIdAt, List.getElem?_eq_none (le_of_not_lt hklen)]
            exact fun hc => hg.1 hc.symm
        refine ⟨?_, ?_, rfl, rfl, rfl, rfl, ?_, ⟨_, rfl⟩⟩
        · exact idsDistinct_erase _ _ hdist1
        · rw [erase_entries_length, updChunk_length]
        · intro k hk
          rw [erase_sig _ _ _ (hne k hk), sigAt_updChunk_ne _ _ _ _ hk]
    · rw [if_neg hg]
      exact ⟨hdist, rfl, rfl, rfl, rfl, rfl, fun k _ => rfl,
        ⟨[], (List.append_nil _).symm⟩⟩

/-- One relinquish iteration touches no allocator bit outside the block
footprint of the descriptor it processes. -/
theorem relinquishOne_bits (ops : DeltaOps) (tracker : VisitSet) (v : Int)
    (rb : Bool) (acc : SubManager × Bool × List Event) (j : Nat) (p : Nat)
    (hfree : ∀ e, acc.1.chunks.entries[j]? = some e → e.id ≠ -1 →
      e.val.visitId = v →
      p ∉ (e.val.blocks.take e.val.numBlocks).map
        (fun off => (off - acc.1.alloc.offset) / acc.1.alloc.blockSize)) :
    bitGet acc.1.alloc.lg (relinquishOne ops tracker v rb acc j).1.alloc.bits p
      = bitGet acc.1.alloc.lg acc.1.alloc.bits p := by
  rw [relinquishOne]
  cases he : acc.1.chunks.entries[j]? with
  | none => rfl
  | some e =>
    dsimp only
    by_cases hg : e.id ≠ -1 ∧ e.val.visitId = v
    · rw [if_pos hg]
      cases hdr : (drainQueue tracker e.val.interestedParties
          e.val.interestedParties.size).1 with
      | some nxt =>
        dsimp only
        cases rb with
        | false =>
          simp only [Bool.false_eq_true, if_false]
          rfl
        | true =>
          simp only [eq_self_iff_true, if_true]
          rfl
      | none =>
        dsimp only
        exact free_bits_frame acc.1.alloc e.val.blocks e.val.numBlocks p
          (hfree e he hg.1 hg.2)
    · rw [if_neg hg]

/-- The relinquish scan over any index list: distinctness, entry count,
allocator geometry and `ipCap` are preserved; slots outside the list are
untouched; slots holding a free entry or another visit's chunk keep
their id and payload wherever they sit; the trace only grows. -/
theorem relinquishFold_invar (ops : DeltaOps) (tracker : VisitSet) (v : Int)
    (rb : Bool) :
    ∀ (L : List Nat) (acc : SubManager × Bool × List Event),
      idsDistinct acc.1.chunks.entries →
      idsDistinct (L.foldl (relinquishOne ops tracker v rb)
          acc).1.chunks.entries
      ∧ (L.foldl (relinquishOne ops tracker v rb) acc).1.chunks.entries.length
          = acc.1.chunks.entries.length
      ∧ (L.foldl (relinquishOne ops tracker v rb) acc).1.alloc.lg
          = acc.1.alloc.lg
      ∧ (L.foldl (relinquishOne ops tracker v rb) acc).1.alloc.offset
          = acc.1.alloc.offset
      ∧ (L.foldl (relinquishOne ops tracker v rb) acc).1.alloc.blockSize
          = acc.1.alloc.blockSize
      ∧ (L.foldl (relinquishOne ops tracker v rb) acc).1.ipCap = acc.1.ipCap
      ∧ (∀ k, k ∉ L →
          sigAt (L.foldl (relinquishOne ops tracker v rb)
              acc).1.chunks.entries k
            = sigAt acc.1.chunks.entries k)
      ∧ (∀ k i a, sigAt acc.1.chunks.entries k = some (i, a) →
          (i = -1 ∨ a.visitId ≠ v) →
          sigAt (L.foldl (relinquishOne ops tracker v rb)
              acc).1.chunks.entries k = some (i, a))
      ∧ (∃ t, (L.foldl (relinquishOne ops tracker v rb) acc).2.2
          = acc.2.2 ++ t) := by
  intro L
  induction L with
  | nil =>
    intro acc hdist
    exact ⟨hdist, rfl, rfl, rfl, rfl, rfl, fun k _ => rfl,
      fun k i a h _ => h, ⟨[], (List.append_nil _).symm⟩⟩
  | cons j rest ih =>
    intro acc hdist
    rw [List.foldl_cons]
    obtain ⟨d1, l1, g1, o1, b1, c1, s1, t1⟩ :=
      relinquishOne_invar ops tracker v rb acc j hdist
    obtain ⟨d2, l2, g2, o2, b2, c2, s2, w2, t2⟩ :=
      ih (relinquishOne ops tracker v rb acc j) d1
    refine ⟨d2, l2.trans l1, g2.trans g1, o2.trans o1, b2.trans b1,
      c2.trans c1, ?_, ?_, ?_⟩
    · intro k hkL
      rw [List.mem_cons, not_or] at hkL
      rw [s2 k hkL.2, s1 k hkL.1]
    · intro k i a hsig hown
      have hsig1 : sigAt (relinquishOne ops tracker v rb acc j).1.chunks.entries
          k = some (i, a) := by
        by_cases hkj : k = j
        · subst hkj
          rw [relinquishOne_skip ops tracker v rb acc k (fun e heq => by
            rw [sigAt, heq] at hsig
            simp only [Option.map_some', Option.some.injEq, Prod.mk.injEq]
              at hsig
            rcases hown with hc | hc
            · exact Or.inl (hsig.1.trans hc)
            · exact Or.inr (by rw [hsig.2]; exact hc))]
          exact hsig
        · rw [s1 k hkj]
          exact hsig
      exact w2 k i a hsig1 hown
    · obtain ⟨ta, hta⟩ := t1
      obtain ⟨tb, htb⟩ := t2
      exact ⟨ta ++ tb, by rw [htb, hta, List.append_assoc]⟩

/-- The relinquish scan frees only allocator bits inside the block
footprints of descriptors owned by the departing visit. -/
theorem relinquishFold_bits (ops : DeltaOps) (tracker : VisitSet) (v : Int)
    (rb : Bool) (p : Nat) :
    ∀ (L : List Nat) (acc : SubManager × Bool × List Event),
      idsDistinct acc.1.chunks.entries → L.Nodup →
      (∀ j ∈ L, ∀ e, acc.1.chunks.entries[j]? = some e → e.id ≠ -1 →
        e.val.visitId = v →
        p ∉ (e.val.blocks.take e.val.numBlocks).map
          (fun off => (off - acc.1.alloc.offset) / acc.1.alloc.blockSize)) →
      bitGet acc.1.alloc.lg
          ((L.foldl (relinquishOne ops tracker v rb) acc).1.alloc.bits) p
        = bitGet acc.1.alloc.lg acc.1.alloc.bits p := by
  intro L
  induction L with
  | nil => intro acc _ _ _; rfl
  | cons j rest ih =>
    intro acc hdist hnd hp
    obtain ⟨hjr, hndr⟩ := List.nodup_cons.mp hnd
    rw [List.foldl_cons]
    obtain ⟨d1, l1, g1, o1, b1, c1, s1, t1⟩ :=
      relinquishOne_invar ops tracker v rb acc j hdist
    have hstep := relinquishOne_bits ops tracker v rb acc j p
      (hp j (List.mem_cons_self j rest))
    have hp' : ∀ j' ∈ rest, ∀ e,
        (relinquishOne ops tracker v rb acc j).1.chunks.entries[j']? = some e →
        e.id ≠ -1 → e.val.visitId = v →
        p ∉ (e.val.blocks.take e.val.numBlocks).map
          (fun off =>
            (off - (relinquishOne ops tracker v rb acc j).1.alloc.offset)
              / (relinquishOne ops tracker v rb acc j).1.alloc.blockSize) := by
      intro j' hj' e' he' hid' hv'
      have hne : j' ≠ j := fun hc => hjr (hc ▸ hj')
      have hsig := s1 j' hne
      rw [sigAt, sigAt, he'] at hsig
      cases he0 : acc.1.chunks.entries[j']? with
      | none =>
        rw [he0] at hsig
        simp at hsig
      | some e0 =>
        rw [he0] at hsig
        simp only [Option.map_some', Option.some.injEq, Prod.mk.injEq]
          at hsig
        have hmem := hp j' (List.mem_cons_of_mem j hj') e0 he0
          (by rw [← hsig.1]; exact hid') (by rw [← hsig.2]; exact hv')
        rw [o1, b1, hsig.2]
        exact hmem
    rw [← g1, ih (relinquishOne ops tracker v rb acc j) d1 hndr hp', g1]
    exact hstep

-- ## C10: the full frame theorem of relinquishOwnership

/-- C10 (amended): `relinquishOwnership(visitId, rollback, tracker)`, on
a state whose allocated descriptors carry distinct ids, leaves the id
and every payload field (ownership, usable flag, interested-parties
queue, block bookkeeping) of each descriptor that is free or owned by a
different visit exactly as they were — only the intrusive
`_nextInChain` link of such a descriptor may move when a chunk in the
same hash bucket is erased — and leaves every allocator bit outside the
block footprints of the departing visit's descriptors unchanged. -/
theorem relinquishOwnership_frame (ops : DeltaOps) (tracker : VisitSet)
    (v : Int) (rb : Bool) (m : SubManager) (idx : Nat) (e : HSEntry ChunkData)
    (p : Nat)
    (hdist : idsDistinct m.chunks.entries)
    (he : m.chunks.entries[idx]? = some e)
    (hother : e.id = -1 ∨ e.val.visitId ≠ v)
    (hp : ∀ j, j < m.chunks.entries.length → (m.descr j).id ≠ -1 →
      (m.descr j).val.visitId = v →
      p ∉ ((m.descr j).val.blocks.take (m.descr j).val.numBlocks).map
        (fun off => (off - m.alloc.offset) / m.alloc.blockSize)) :
    sigAt (SubManager.relinquishOwnership ops m v rb
        tracker).2.1.chunks.entries idx = some (e.id, e.val)
    ∧ bitGet m.alloc.lg
        (SubManager.relinquishOwnership ops m v rb tracker).2.1.alloc.bits p
      = bitGet m.alloc.lg m.alloc.bits p := by
  rw [SubManager.relinquishOwnership]
  dsimp only
  constructor
  · obtain ⟨_, _, _, _, _, _, _, w, _⟩ :=
      relinquishFold_invar ops tracker v rb
        (List.range m.chunks.entries.length) (m, false, []) hdist
    exact w idx e.id e.val (by rw [sigAt, he]; rfl) hother
  · have hp' : ∀ j ∈ List.range m.chunks.entries.length, ∀ e0,
        (m, false, ([] : List Event)).1.chunks.entries[j]? = some e0 →
        e0.id ≠ -1 → e0.val.visitId = v →
        p ∉ (e0.val.blocks.take e0.val.numBlocks).map
          (fun off => (off - m.alloc.offset) / m.alloc.blockSize) := by
      intro j hj e0 he0 hid0 hv0
      rw [List.mem_range] at hj
      have hd : m.descr j = e0 := by
        rw [SubManager.descr, List.getD_eq_getElem?_getD, he0]
        rfl
      have := hp j hj (by rw [hd]; exact hid0) (by rw [hd]; exact hv0)
      rw [hd] at this
      exact this
    exact relinquishFold_bits ops tracker v rb p
      (List.range m.chunks.entries.length) (m, false, []) hdist
      (List.nodup_range _) hp'

/-- Decidability of id-distinctness (a bounded check). -/
instance idsDistinctDec {α : Type} (entries : List (HSEntry α)) :
    Decidable (idsDistinct entries) :=
  decidable_of_iff (∀ i, i < entries.length → ∀ j, j < entries.length →
    i ≠ j → entryIdAt entries i ≠ -1 →
    entryIdAt entries i ≠ entryIdAt entries j) Iff.rfl

/-- The iteration for a descriptor owned by the departing visit whose
drained queue yields a valid successor: the trace gains the owner update
followed immediately by the commit/rollback, the change flag is set, and
the descriptor keeps its id, now owned by the successor with the drained
queue in place. -/
theorem relinquishOne_succ (ops : DeltaOps) (tracker : VisitSet) (v : Int)
    (rb : Bool) (acc : SubManager × Bool × List Event) (j : Nat)
    (e : HSEntry ChunkData) (nxt : Int) (q' : Fifo)
    (he : acc.1.chunks.entries[j]? = some e) (hid : e.id ≠ -1)
    (hown : e.val.visitId = v)
    (hdr : drainQueue tracker e.val.interestedParties
        e.val.interestedParties.size = (some nxt, q')) :
    (relinquishOne ops tracker v rb acc j).2.2
      = acc.2.2 ++ [Event.setOwner j nxt,
          if rb then Event.rollbackEv j else Event.commitEv j]
    ∧ (relinquishOne ops tracker v rb acc j).2.1 = true
    ∧ ∃ d : ChunkData,
        sigAt (relinquishOne ops tracker v rb acc j).1.chunks.entries j
          = some (e.id, d)
        ∧ d.visitId = nxt ∧ d.interestedParties = q' := by
  have hdr1 : (drainQueue tracker e.val.interestedParties
      e.val.interestedParties.size).1 = some nxt := by rw [hdr]
  have hdr2 : (drainQueue tracker e.val.interestedParties
      e.val.interestedParties.size).2 = q' := by rw [hdr]
  rw [relinquishOne, he]
  dsimp only
  rw [if_pos ⟨hid, hown⟩, hdr1]
  dsimp only
  refine ⟨rfl, rfl, ?_⟩
  cases rb with
  | false =>
    simp only [Bool.false_eq_true, if_false]
    rw [applyDelta_eq_updChunk, sigAt_updChunk_self, sigAt_updChunk_self,
      sigAt_updChunk_self, sigAt, he, hdr2]
    exact ⟨_, rfl, rfl, rfl⟩
  | true =>
    simp only [eq_self_iff_true, if_true]
    rw [applyDelta_eq_updChunk, sigAt_updChunk_self, sigAt_updChunk_self,
      sigAt_updChunk_self, sigAt, he, hdr2]
    exact ⟨_, rfl, rfl, rfl⟩

/-- The scan over `L1 ++ idx :: L2` with `idx` not in the prefix: the
trace contains the owner update for `idx` immediately followed by its
commit/rollback, in that order. -/
theorem relinquishFold_events (ops : DeltaOps) (tracker : VisitSet) (v : Int)
    (rb : Bool) (L1 L2 : List Nat) (m : SubManager) (idx : Nat)
    (e : HSEntry ChunkData) (nxt : Int) (q' : Fifo)
    (hdist : idsDistinct m.chunks.entries)
    (he : m.chunks.entries[idx]? = some e) (hid : e.id ≠ -1)
    (hown : e.val.visitId = v)
    (hdr : drainQueue tracker e.val.interestedParties
        e.val.interestedParties.size = (some nxt, q'))
    (hL1 : idx ∉ L1) :
    ∃ tr1 tr2,
      ((L1 ++ idx :: L2).foldl (relinquishOne ops tracker v rb)
          (m, false, [])).2.2
        = tr1 ++ Event.setOwner idx nxt
            :: (if rb then Event.rollbackEv idx else Event.commitEv idx)
            :: tr2 := by
  rw [List.foldl_append, List.foldl_cons]
  obtain ⟨d1, _, _, _, _, _, s1, _, _⟩ :=
    relinquishFold_invar ops tracker v rb L1 (m, false, []) hdist
  have hm : sigAt m.chunks.entries idx = some (e.id, e.val) := by
    rw [sigAt, he]
    rfl
  have hsig1 := (s1 idx hL1).trans hm
  rw [sigAt] at hsig1
  cases he1 : (L1.foldl (relinquishOne ops tracker v rb)
      (m, false, [])).1.chunks.entries[idx]? with
  | none =>
    rw [he1] at hsig1
    simp at hsig1
  | some e1 =>
    rw [he1] at hsig1
    simp only [Option.map_some', Option.some.injEq, Prod.mk.injEq] at hsig1
    obtain ⟨htr, hch, _⟩ := relinquishOne_succ ops tracker v rb
      (L1.foldl (relinquishOne ops tracker v rb) (m, false, [])) idx e1 nxt q'
      he1 (by rw [hsig1.1]; exact hid) (by rw [hsig1.2]; exact hown)
      (by rw [hsig1.2]; exact hdr)
    obtain ⟨_, _, _, _, _, _, _, _, t2⟩ :=
      relinquishFold_invar ops tracker v rb L2
        (relinquishOne ops tracker v rb
          (L1.foldl (relinquishOne ops tracker v rb) (m, false, [])) idx)
        (relinquishOne_invar ops tracker v rb _ idx d1).1
    obtain ⟨tb, htb⟩ := t2
    refine ⟨(L1.foldl (relinquishOne ops tracker v rb) (m, false, [])).2.2,
      tb, ?_⟩
    rw [htb, htr, List.append_assoc]
    rfl

/-- C1 (amended): during `relinquishOwnership`, for every descriptor
owned by the departing visit for which a valid successor is found, the
descriptor's `_visitId` field is updated to the successor (line 522)
FIRST, and the commit (when rollback is false) or rollback (when
rollback is true) is invoked on the chunk immediately AFTER the drain
loop (lines 528-534), within the same iteration. -/
theorem relinquishOwnership_events (ops : DeltaOps) (tracker : VisitSet)
    (v : Int) (rb : Bool) (m : SubManager) (idx : Nat)
    (e : HSEntry ChunkData) (nxt : Int) (q' : Fifo)
    (hdist : idsDistinct m.chunks.entries)
    (he : m.chunks.entries[idx]? = some e) (hid : e.id ≠ -1)
    (hown : e.val.visitId = v)
    (hdr : drainQueue tracker e.val.interestedParties
        e.val.interestedParties.size = (some nxt, q')) :
    ∃ tr1 tr2, (SubManager.relinquishOwnership ops m v rb tracker).2.2
      = tr1 ++ Event.setOwner idx nxt
          :: (if rb then Event.rollbackEv idx else Event.commitEv idx)
          :: tr2 := by
  have hlen : idx < m.chunks.entries.length := by
    by_contra hge
    rw [List.getElem?_eq_none (le_of_not_lt hge)] at he
    exact absurd he (by simp)
  have hk : m.chunks.entries.length
      = (m.chunks.entries.length - idx - 1) + 1 + idx := by omega
  have hsplit : List.range m.chunks.entries.length
      = List.range' 0 idx
        ++ idx :: List.range' (idx + 1) (m.chunks.entries.length - idx - 1) := by
    rw [List.range_eq_range']
    nth_rewrite 1 [hk]
    rw [← List.range'_append 0 idx (m.chunks.entries.length - idx - 1 + 1) 1]
    simp only [Nat.zero_add, Nat.one_mul]
    rw [List.range'_succ]
  rw [SubManager.relinquishOwnership]
  dsimp only
  rw [hsplit]
  exact relinquishFold_events ops tracker v rb _ _ m idx e nxt q' hdist he
    hid hown hdr (by
      intro hc
      rw [List.mem_range'_1] at hc
      omega)

/-- Witness for the amended C1 on `smC1`: relinquishing visit 9's chunk 1
with valid successor 5 puts `setOwner` immediately before `commit` in the
trace. -/
theorem relinquishOwnership_events_witness :
    idsDistinct smC1.chunks.entries
    ∧ smC1.chunks.entries[0]? = some (smC1.descr 0)
    ∧ (smC1.descr 0).id ≠ -1
    ∧ (smC1.descr 0).val.visitId = 9
    ∧ ∃ tr1 tr2, (SubManager.relinquishOwnership idOps smC1 9 false vs5).2.2
        = tr1 ++ Event.setOwner 0 5 :: Event.commitEv 0 :: tr2 := by
  refine ⟨by decide, by decide, by decide, by decide, ?_⟩
  exact relinquishOwnership_events idOps vs5 9 false smC1 0 (smC1.descr 0) 5
    (drainQueue vs5 (smC1.descr 0).val.interestedParties
      (smC1.descr 0).val.interestedParties.size).2
    (by decide) (by decide) (by decide) (by decide) (by decide)

/-- Witness for the amended C10 on `smC10`: descriptor 0 (chunk 1, owned
by visit 5) keeps its id and entire payload across visit 9's
relinquishment, and allocator bit 2 survives untouched. -/
theorem relinquishOwnership_frame_witness :
    idsDistinct smC10.chunks.entries
    ∧ smC10.chunks.entries[0]? = some (smC10.descr 0)
    ∧ ((smC10.descr 0).id = -1 ∨ (smC10.descr 0).val.visitId ≠ 9)
    ∧ (sigAt (SubManager.relinquishOwnership idOps smC10 9 false
          vs5).2.1.chunks.entries 0
        = some ((smC10.descr 0).id, (smC10.descr 0).val)
      ∧ bitGet smC10.alloc.lg
          (SubManager.relinquishOwnership idOps smC10 9 false
            vs5).2.1.alloc.bits 2
        = bitGet smC10.alloc.lg smC10.alloc.bits 2) := by
  refine ⟨by decide, by decide, by decide, ?_⟩
  exact relinquishOwnership_frame idOps vs5 9 false smC10 0 (smC10.descr 0) 2
    (by decide) (by decide) (by decide) (by decide)

-- ## The head-drain loop of relinquishOwnership

/-- The drain loop pops the queue front-first and stops at the first id
whose visit is valid: dropped prefix gone, the successor is the first
valid element, and the queue continues with exactly the suffix behind
it (nothing is re-queued). -/
theorem drainQueue_spec (tracker : VisitSet) :
    ∀ (n : Nat) (f : Fifo), f.WF → f.size = n →
      (∀ x xs,
        f.toList.dropWhile (fun y => ! VisitTracker.isValid tracker y)
          = x :: xs →
        ∃ f', drainQueue tracker f n = (some x, f') ∧ f'.WF
          ∧ f'.toList = xs ∧ f'.cap = f.cap) := by
  intro n
  induction n with
  | zero =>
    intro f hwf hsz x xs hx
    exfalso
    have hnil : f.toList = [] := List.eq_nil_of_length_eq_zero
      (by rw [Fifo.toList_length, hsz])
    rw [hnil] at hx
    simp at hx
  | succ k ih =>
    intro f hwf hsz x xs hx
    have hne : f.size ≠ 0 := by omega
    obtain ⟨x0, f1, hdq, hwf1, htl, hcap, _⟩ := Fifo.dequeue_toList hwf hne
    have hsz1 : f1.size = k := by
      have h1 := Fifo.toList_length f
      have h2 := Fifo.toList_length f1
      rw [htl] at h1
      simp only [List.length_cons] at h1
      omega
    have hemp : f.isEmpty = false := by
      rw [Fifo.isEmpty]
      simp [hne]
    rw [htl, List.dropWhile_cons] at hx
    rw [drainQueue, hemp]
    simp only [Bool.false_eq_true, if_false]
    rw [hdq]
    dsimp only
    by_cases hv : VisitTracker.isValid tracker x0 = true
    · rw [if_neg (by rw [hv]; simp)] at hx
      simp only [List.cons.injEq] at hx
      rw [hv]
      simp only [if_true]
      exact ⟨f1, by rw [hx.1], hwf1, hx.2.symm ▸ rfl, hcap⟩
    · have hv0 : VisitTracker.isValid tracker x0 = false :=
        Bool.eq_false_iff.mpr hv
      rw [if_pos (by rw [hv0]; rfl)] at hx
      rw [hv0]
      simp only [Bool.false_eq_true, if_false]
      obtain ⟨f', hres, hwf', htl', hcap'⟩ := ih f1 hwf1 hsz1 x xs hx
      exact ⟨f', hres, hwf', htl', hcap'.trans hcap⟩

/-- Post-state of the scan at the handed-off descriptor itself: still
the same chunk id, owned by the successor, with the drained queue. -/
theorem relinquishFold_handoff (ops : DeltaOps) (tracker : VisitSet)
    (v : Int) (rb : Bool) (L1 L2 : List Nat) (m : SubManager) (idx : Nat)
    (e : HSEntry ChunkData) (nxt : Int) (q' : Fifo)
    (hdist : idsDistinct m.chunks.entries)
    (he : m.chunks.entries[idx]? = some e) (hid : e.id ≠ -1)
    (hown : e.val.visitId = v)
    (hdr : drainQueue tracker e.val.interestedParties
        e.val.interestedParties.size = (some nxt, q'))
    (hL1 : idx ∉ L1) (hL2 : idx ∉ L2) :
    ∃ d : ChunkData,
      sigAt (((L1 ++ idx :: L2).foldl (relinquishOne ops tracker v rb)
          (m, false, [])).1.chunks.entries) idx = some (e.id, d)
      ∧ d.visitId = nxt ∧ d.interestedParties = q'
      ∧ idsDistinct ((L1 ++ idx :: L2).foldl (relinquishOne ops tracker v rb)
          (m, false, [])).1.chunks.entries := by
  rw [List.foldl_append, List.foldl_cons]
  obtain ⟨d1, _, _, _, _, _, s1, _, _⟩ :=
    relinquishFold_invar ops tracker v rb L1 (m, false, []) hdist
  have hm : sigAt m.chunks.entries idx = some (e.id, e.val) := by
    rw [sigAt, he]
    rfl
  have hsig1 := (s1 idx hL1).trans hm
  rw [sigAt] at hsig1
  cases he1 : (L1.foldl (relinquishOne ops tracker v rb)
      (m, false, [])).1.chunks.entries[idx]? with
  | none =>
    rw [he1] at hsig1
    simp at hsig1
  | some e1 =>
    rw [he1] at hsig1
    simp only [Option.map_some', Option.some.injEq, Prod.mk.injEq] at hsig1
    obtain ⟨_, _, ⟨d, hsd, hdv, hdi⟩⟩ := relinquishOne_succ ops tracker v rb
      (L1.foldl (relinquishOne ops tracker v rb) (m, false, [])) idx e1 nxt q'
      he1 (by rw [hsig1.1]; exact hid) (by rw [hsig1.2]; exact hown)
      (by rw [hsig1.2]; exact hdr)
    obtain ⟨d2, _, _, _, _, _, s2, _, _⟩ :=
      relinquishFold_invar ops tracker v rb L2
        (relinquishOne ops tracker v rb
          (L1.foldl (relinquishOne ops tracker v rb) (m, false, [])) idx)
        (relinquishOne_invar ops tracker v rb _ idx d1).1
    refine ⟨d, ?_, hdv, hdi, d2⟩
    rw [s2 idx hL2, hsd, hsig1.1]

/-- One full `relinquishOwnership` call, seen from a descriptor owned by
the departing visit whose queue (after dropping the invalid prefix)
starts with a valid successor: the chunk keeps its id, is owned by that
successor, and its queue is exactly the remaining suffix. -/
theorem relinquishOwnership_handoff (ops : DeltaOps) (tracker : VisitSet)
    (v : Int) (rb : Bool) (m : SubManager) (idx : Nat)
    (e : HSEntry ChunkData) (x : Int) (xs : List Int)
    (hdist : idsDistinct m.chunks.entries)
    (he : m.chunks.entries[idx]? = some e) (hid : e.id ≠ -1)
    (hown : e.val.visitId = v)
    (hwf : e.val.interestedParties.WF)
    (hdrop : e.val.interestedParties.toList.dropWhile
        (fun y => ! VisitTracker.isValid tracker y) = x :: xs) :
    ∃ d : ChunkData,
      sigAt (SubManager.relinquishOwnership ops m v rb
          tracker).2.1.chunks.entries idx = some (e.id, d)
      ∧ d.visitId = x ∧ d.interestedParties.toList = xs
      ∧ d.interestedParties.WF
      ∧ idsDistinct (SubManager.relinquishOwnership ops m v rb
          tracker).2.1.chunks.entries := by
  obtain ⟨q', hdr, hwf', htl', _⟩ :=
    drainQueue_spec tracker e.val.interestedParties.size
      e.val.interestedParties hwf rfl x xs hdrop
  have hlen : idx < m.chunks.entries.length := by
    by_contra hge
    rw [List.getElem?_eq_none (le_of_not_lt hge)] at he
    exact absurd he (by simp)
  have hk : m.chunks.entries.length
      = (m.chunks.entries.length - idx - 1) + 1 + idx := by omega
  have hsplit : List.range m.chunks.entries.length
      = List.range' 0 idx
        ++ idx :: List.range' (idx + 1)
          (m.chunks.entries.length - idx - 1) := by
    rw [List.range_eq_range']
    nth_rewrite 1 [hk]
    rw [← List.range'_append 0 idx (m.chunks.entries.length - idx - 1 + 1) 1]
    simp only [Nat.zero_add, Nat.one_mul]
    rw [List.range'_succ]
  rw [SubManager.relinquishOwnership]
  dsimp only
  rw [hsplit]
  obtain ⟨d, hsd, hdv, hdi, hdist'⟩ := relinquishFold_handoff ops tracker v rb
    (List.range' 0 idx)
    (List.range' (idx + 1) (m.chunks.entries.length - idx - 1))
    m idx e x q' hdist he hid hown hdr
    (by
      intro hc
      rw [List.mem_range'_1] at hc
      omega)
    (by
      intro hc
      rw [List.mem_range'_1] at hc
      omega)
  refine ⟨d, hsd, hdv, ?_, ?_, hdist'⟩
  · rw [hdi]
    exact htl'
  · rw [hdi]
    exact hwf'

/-- Chunk 1 owned by visit 9, with visits 5 then 7 registered in that
order in its interested-parties queue. -/
def smC2 : SubManager :=
  ((((smBase 2).createOrRegisterInterest 9 [1]).2.1.createOrRegisterInterest
    5 [1]).2.1.createOrRegisterInterest 7 [1]).2.1

/-- C2: for a chunk owned by visit A whose queue holds (after any
invalid prefix) B then C in registration order, the hand-off triggered
by A's departure drains the queue from the front, drops the invalid
prefix without re-queueing it, and hands the chunk to B with exactly
`C :: rest` left queued; the next hand-off (B's departure) then hands it
to C with `rest` left — strictly the order B then C. -/
theorem relinquishOwnership_fifo_order (ops1 ops2 : DeltaOps)
    (tr1 tr2 : VisitSet) (rb1 rb2 : Bool) (m : SubManager) (idx : Nat)
    (e : HSEntry ChunkData) (vA vB vC : Int) (pre rest : List Int)
    (hdist : idsDistinct m.chunks.entries)
    (he : m.chunks.entries[idx]? = some e) (hid : e.id ≠ -1)
    (hownA : e.val.visitId = vA)
    (hwf : e.val.interestedParties.WF)
    (hq : e.val.interestedParties.toList = pre ++ vB :: vC :: rest)
    (hpre : ∀ y ∈ pre, VisitTracker.isValid tr1 y = false)
    (hB : VisitTracker.isValid tr1 vB = true)
    (hC : VisitTracker.isValid tr2 vC = true) :
    ∃ d1 d2 : ChunkData,
      sigAt (SubManager.relinquishOwnership ops1 m vA rb1
          tr1).2.1.chunks.entries idx = some (e.id, d1)
      ∧ d1.visitId = vB
      ∧ d1.interestedParties.toList = vC :: rest
      ∧ sigAt (SubManager.relinquishOwnership ops2
            (SubManager.relinquishOwnership ops1 m vA rb1 tr1).2.1 vB rb2
            tr2).2.1.chunks.entries idx = some (e.id, d2)
      ∧ d2.visitId = vC
      ∧ d2.interestedParties.toList = rest := by
  have hdrop1 : e.val.interestedParties.toList.dropWhile
      (fun y => ! VisitTracker.isValid tr1 y) = vB :: vC :: rest := by
    rw [hq, List.dropWhile_append]
    have hpre0 : pre.dropWhile (fun y => ! VisitTracker.isValid tr1 y)
        = [] := by
      rw [List.dropWhile_eq_nil_iff]
      intro y hy
      rw [hpre y hy]
      rfl
    rw [hpre0]
    simp only [List.isEmpty_nil, eq_self_iff_true, if_true]
    rw [List.dropWhile_cons, if_neg (by rw [hB]; simp)]
  obtain ⟨d1, hs1, hv1, ht1, hwf1, hdist1⟩ := relinquishOwnership_handoff
    ops1 tr1 vA rb1 m idx e vB (vC :: rest) hdist he hid hownA hwf hdrop1
  have hs1' := hs1
  rw [sigAt] at hs1'
  cases he2 : (SubManager.relinquishOwnership ops1 m vA rb1
      tr1).2.1.chunks.entries[idx]? with
  | none =>
    rw [he2] at hs1'
    simp at hs1'
  | some e2 =>
    rw [he2] at hs1'
    simp only [Option.map_some', Option.some.injEq, Prod.mk.injEq] at hs1'
    have hdrop2 : e2.val.interestedParties.toList.dropWhile
        (fun y => ! VisitTracker.isValid tr2 y) = vC :: rest := by
      rw [hs1'.2, ht1, List.dropWhile_cons, if_neg (by rw [hC]; simp)]
    obtain ⟨d2, hs2, hv2, ht2, _, _⟩ := relinquishOwnership_handoff
      ops2 tr2 vB rb2 _ idx e2 vC rest hdist1 he2
      (by rw [hs1'.1]; exact hid) (by rw [hs1'.2]; exact hv1)
      (by rw [hs1'.2]; exact hwf1) hdrop2
    refine ⟨d1, d2, hs1, hv1, ht1, ?_, hv2, ht2⟩
    rw [hs2, hs1'.1]

/-- Witness for C2 on `smC2`: relinquishing visit 9's chunk hands it to
visit 5 (queue left `[7]`), then relinquishing visit 5's hands it to
visit 7 (queue empty). -/
theorem relinquishOwnership_fifo_order_witness :
    idsDistinct smC2.chunks.entries
    ∧ smC2.chunks.entries[0]? = some (smC2.descr 0)
    ∧ (smC2.descr 0).id ≠ -1
    ∧ (smC2.descr 0).val.visitId = 9
    ∧ (smC2.descr 0).val.interestedParties.toList = [] ++ 5 :: 7 :: []
    ∧ ∃ d1 d2 : ChunkData,
        sigAt (SubManager.relinquishOwnership idOps smC2 9 false
            vs57).2.1.chunks.entries 0 = some ((smC2.descr 0).id, d1)
        ∧ d1.visitId = 5
        ∧ d1.interestedParties.toList = 7 :: []
        ∧ sigAt (SubManager.relinquishOwnership idOps
              (SubManager.relinquishOwnership idOps smC2 9 false vs57).2.1
              5 false vs57).2.1.chunks.entries 0
            = some ((smC2.descr 0).id, d2)
        ∧ d2.visitId = 7
        ∧ d2.interestedParties.toList = [] := by
  refine ⟨by decide, by decide, by decide, by decide, by decide, ?_⟩
  exact relinquishOwnership_fifo_order idOps idOps vs57 vs57 false false
    smC2 0 (smC2.descr 0) 9 5 7 [] [] (by decide) (by decide) (by decide)
    (by decide) ⟨⟨1, by decide⟩, by decide, by decide, by decide, by decide⟩
    (by decide) (by decide) (by decide) (by decide)

-- ## checkForOwnership: the swap-remove scan

/-- The `O(1)` removal (`v[i] = v[size-1]; pop_back`) keeps the prefix
before `i` intact and permutes the remainder: the multiset loses exactly
the element at `i`. -/
theorem swapRemove_perm (l : List Nat) (i : Nat) (hi : i < l.length) :
    ((l.set i (l.getD (l.length - 1) 0)).dropLast).take i = l.take i
    ∧ ((l.set i (l.getD (l.length - 1) 0)).dropLast).Perm
        (l.take i ++ l.drop (i + 1)) := by
  have hset : l.set i (l.getD (l.length - 1) 0)
      = l.take i ++ l.getD (l.length - 1) 0 :: l.drop (i + 1) :=
    List.set_eq_take_cons_drop _ hi
  have hlentake : (l.take i).length = i := List.length_take_of_le (by omega)
  by_cases hlast : i + 1 < l.length
  · have hne : l.drop (i + 1) ≠ [] := by
      rw [ne_eq, List.drop_eq_nil_iff]
      omega
    have hx : (l.drop (i + 1)).getLast hne = l.getD (l.length - 1) 0 := by
      rw [List.getLast_eq_getElem, List.getElem_drop,
        List.getD_eq_getElem l 0 (show l.length - 1 < l.length by omega)]
      congr 1
      simp only [List.length_drop]
      omega
    have hd : l.drop (i + 1)
        = (l.drop (i + 1)).dropLast ++ [l.getD (l.length - 1) 0] := by
      rw [← hx]
      exact (List.dropLast_concat_getLast hne).symm
    have hform : l.set i (l.getD (l.length - 1) 0)
        = (l.take i ++ l.getD (l.length - 1) 0
            :: (l.drop (i + 1)).dropLast) ++ [l.getD (l.length - 1) 0] := by
      rw [hset]
      nth_rewrite 1 [hd]
      simp [List.append_assoc]
    have hdl : (l.set i (l.getD (l.length - 1) 0)).dropLast
        = l.take i ++ l.getD (l.length - 1) 0
            :: (l.drop (i + 1)).dropLast := by
      rw [hform, List.dropLast_concat]
    constructor
    · rw [hdl, List.take_left' hlentake]
    · rw [hdl]
      refine ((List.perm_append_left_iff (l.take i)).mpr ?_).trans
        (List.Perm.refl _)
      nth_rewrite 2 [hd]
      exact (List.perm_append_singleton _ _).symm
  · have hi1 : l.length = i + 1 := by omega
    have hdrop : l.drop (i + 1) = [] := List.drop_eq_nil_of_le (by omega)
    have hdl : (l.set i (l.getD (l.length - 1) 0)).dropLast = l.take i := by
      rw [hset, hdrop, List.dropLast_concat]
    constructor
    · rw [hdl, List.take_take]
      simp
    · rw [hdl, hdrop, List.append_nil]

/-- A payload update that keeps `visitId` and `usable` leaves every
slot's `visitIdOf`/`usableOf` reading unchanged. -/
theorem updChunk_fields (m : SubManager) (c : Nat)
    (f : ChunkData → ChunkData) (k : Nat)
    (hv : ∀ d, (f d).visitId = d.visitId)
    (hu : ∀ d, (f d).usable = d.usable) :
    (m.updChunk c f).visitIdOf k = m.visitIdOf k
    ∧ (m.updChunk c f).usableOf k = m.usableOf k := by
  have hd : ((m.updChunk c f).descr k).val.visitId
        = (m.descr k).val.visitId
      ∧ ((m.updChunk c f).descr k).val.usable = (m.descr k).val.usable := by
    rw [SubManager.updChunk]
    dsimp only
    rw [SubManager.descr, SubManager.descr]
    dsimp only
    rw [List.getD_eq_getElem?_getD, List.getD_eq_getElem?_getD]
    by_cases hk : k = c
    · subst hk
      rw [updEntry, if_pos (by exact Int.natCast_nonneg k)]
      have htn : (Int.ofNat k).toNat = k := rfl
      rw [htn]
      cases h : m.chunks.entries[k]? with
      | none =>
        dsimp only
        rw [h]
        exact ⟨rfl, rfl⟩
      | some e =>
        have hlt : k < m.chunks.entries.length := by
          by_contra hge
          rw [List.getElem?_eq_none (le_of_not_lt hge)] at h
          exact absurd h (by simp)
        dsimp only
        rw [List.getElem?_set_self hlt]
        exact ⟨hv e.val, hu e.val⟩
    · rw [updEntry_getElem_ne _ _ _ k (fun hc => hk (Int.ofNat.inj hc))]
      exact ⟨rfl, rfl⟩
  exact ⟨hd.1, hd.2⟩

/-- `Chunk::clear` returns blocks to the allocator and zeroes the
delta bookkeeping; it does not touch ownership or usability of any
descriptor. -/
theorem clearChunk_fields (m : SubManager) (c k : Nat) :
    (m.clearChunk c).visitIdOf k = m.visitIdOf k
    ∧ (m.clearChunk c).usableOf k = m.usableOf k := by
  rw [SubManager.clearChunk]
  exact updChunk_fields _ c _ k (fun d => rfl) (fun d => rfl)

/-- Invariant of the `checkForOwnership` scan: from position `i` on, the
loop removes exactly the owned entries of the unprocessed tail (the
prefix before `i` is already checked and kept), appends the owned
not-usable ones to `toRead` while clearing them in encounter order, and
touches nothing else. -/
theorem checkLoop_spec (v : Int) :
    ∀ (fuel : Nat) (m : SubManager) (toRead toWaitFor : List Nat) (i : Nat),
      2 * toWaitFor.length ≤ fuel + i →
      ∃ l : List Nat,
        l.Perm ((toWaitFor.drop i).filter
          (fun c => decide (m.visitIdOf c = v) && ! m.usableOf c))
        ∧ (checkLoop v m toRead toWaitFor i fuel).2.1 = toRead ++ l
        ∧ (checkLoop v m toRead toWaitFor i fuel).1
            = l.foldl SubManager.clearChunk m
        ∧ (checkLoop v m toRead toWaitFor i fuel).2.2.Perm
            (toWaitFor.take i ++ (toWaitFor.drop i).filter
              (fun c => ! decide (m.visitIdOf c = v))) := by
  intro fuel
  induction fuel with
  | zero =>
    intro m toRead toWaitFor i hfuel
    have hge : toWaitFor.length ≤ i := by omega
    refine ⟨[], ?_, (List.append_nil _).symm, rfl, ?_⟩
    · rw [List.drop_eq_nil_of_le hge]
      exact List.Perm.refl _
    · rw [List.drop_eq_nil_of_le hge, List.take_of_length_le hge]
      simp only [List.filter_nil, List.append_nil]
      exact List.Perm.refl _
  | succ fuel ih =>
    intro m toRead toWaitFor i hfuel
    rw [checkLoop]
    simp only [← List.getD_eq_getElem?_getD]
    by_cases hi : i < toWaitFor.length
    · rw [if_pos hi]
      have hgetd : toWaitFor.getD i 0 = toWaitFor[i] :=
        List.getD_eq_getElem toWaitFor 0 hi
      have hdropc : toWaitFor.drop i
          = toWaitFor.getD i 0 :: toWaitFor.drop (i + 1) := by
        rw [List.drop_eq_getElem_cons hi, hgetd]
      by_cases hown : m.visitIdOf (toWaitFor.getD i 0) = v
      · rw [if_neg (show ¬ m.visitIdOf (toWaitFor.getD i 0) ≠ v from
          not_not_intro hown)]
        obtain ⟨htake', hperm'⟩ := swapRemove_perm toWaitFor i hi
        have hpermdrop : (((toWaitFor.set i
            (toWaitFor.getD (toWaitFor.length - 1) 0)).dropLast).drop i).Perm
            (toWaitFor.drop (i + 1)) := by
          have hta := List.take_append_drop i
            ((toWaitFor.set i (toWaitFor.getD (toWaitFor.length - 1)
              0)).dropLast)
          rw [← hta, htake'] at hperm'
          exact (List.perm_append_left_iff _).mp hperm'
        have hlen' : ((toWaitFor.set i
            (toWaitFor.getD (toWaitFor.length - 1) 0)).dropLast).length
            = toWaitFor.length - 1 := by
          rw [List.length_dropLast, List.length_set]
        by_cases husable : m.usableOf (toWaitFor.getD i 0) = true
        · rw [if_neg (by rw [husable]; simp)]
          obtain ⟨l, hl1, hl2, hl3, hl4⟩ := ih m toRead
            ((toWaitFor.set i
              (toWaitFor.getD (toWaitFor.length - 1) 0)).dropLast) i
            (by rw [hlen']; omega)
          refine ⟨l, ?_, hl2, hl3, ?_⟩
          · refine hl1.trans ?_
            refine (hpermdrop.filter _).trans ?_
            rw [hdropc, List.filter_cons,
              if_neg (by rw [hown, husable]; simp)]
          · refine hl4.trans ?_
            rw [htake']
            refine (List.perm_append_left_iff _).mpr ?_
            refine (hpermdrop.filter _).trans ?_
            rw [hdropc, List.filter_cons, if_neg (by rw [hown]; simp)]
        · have husable' : m.usableOf (toWaitFor.getD i 0) = false :=
            Bool.eq_false_iff.mpr husable
          rw [if_pos (by rw [husable']; rfl)]
          obtain ⟨l, hl1, hl2, hl3, hl4⟩ :=
            ih (m.clearChunk (toWaitFor.getD i 0))
              (toRead ++ [toWaitFor.getD i 0])
              ((toWaitFor.set i
                (toWaitFor.getD (toWaitFor.length - 1) 0)).dropLast) i
              (by rw [hlen']; omega)
          have hfiltOwn : ∀ (xs : List Nat),
              xs.filter (fun c => decide
                  ((m.clearChunk (toWaitFor.getD i 0)).visitIdOf c = v)
                && ! (m.clearChunk (toWaitFor.getD i 0)).usableOf c)
              = xs.filter (fun c => decide (m.visitIdOf c = v)
                && ! m.usableOf c) := by
            intro xs
            refine List.filter_congr ?_
            intro x _
            rw [(clearChunk_fields m _ x).1, (clearChunk_fields m _ x).2]
          have hfiltKeep : ∀ (xs : List Nat),
              xs.filter (fun c => ! decide
                ((m.clearChunk (toWaitFor.getD i 0)).visitIdOf c = v))
              = xs.filter (fun c => ! decide (m.visitIdOf c = v)) := by
            intro xs
            refine List.filter_congr ?_
            intro x _
            rw [(clearChunk_fields m _ x).1]
          refine ⟨toWaitFor.getD i 0 :: l, ?_, ?_, ?_, ?_⟩
          · rw [hdropc, List.filter_cons,
              if_pos (by rw [hown, husable']; simp)]
            refine List.Perm.cons _ ?_
            refine hl1.trans ?_
            rw [hfiltOwn]
            exact hpermdrop.filter _
          · rw [hl2, List.append_assoc]
            rfl
          · rw [hl3]
            rfl
          · refine hl4.trans ?_
            rw [htake', hfiltKeep]
            refine (List.perm_append_left_iff _).mpr ?_
            refine (hpermdrop.filter _).trans ?_
            rw [hdropc, List.filter_cons, if_neg (by rw [hown]; simp)]
      · rw [if_pos hown]
        obtain ⟨l, hl1, hl2, hl3, hl4⟩ := ih m toRead toWaitFor (i + 1)
          (by omega)
        refine ⟨l, ?_, hl2, hl3, ?_⟩
        · refine hl1.trans ?_
          rw [hdropc, List.filter_cons, if_neg (by
            rw [decide_eq_false hown]
            simp only [Bool.false_and]
            exact Bool.false_ne_true)]
        · refine hl4.trans ?_
          rw [List.take_succ, List.getElem?_eq_getElem hi]
          dsimp only [Option.toList]
          rw [hdropc, List.filter_cons,
            if_pos (by rw [decide_eq_false hown]; rfl),
            List.append_assoc, hgetd]
          exact List.Perm.refl _
    · rw [if_neg hi]
      have hge : toWaitFor.length ≤ i := le_of_not_lt hi
      refine ⟨[], ?_, (List.append_nil _).symm, rfl, ?_⟩
      · rw [List.drop_eq_nil_of_le hge]
        exact List.Perm.refl _
      · rw [List.drop_eq_nil_of_le hge, List.take_of_length_le hge]
        simp only [List.filter_nil, List.append_nil]
        exact List.Perm.refl _

/-- C6: `checkForOwnership(toRead, toWaitFor, visitId)` removes from
`toWaitFor` exactly the chunks now owned by the visit (the rest stays,
possibly permuted by the swap-removal), appends to `toRead` exactly the
removed chunks that are not usable — clearing each one's blocks as it
goes — leaves every other chunk in `toWaitFor`, and returns `true` iff
`toWaitFor` ends up empty. -/
theorem checkForOwnership_spec (m : SubManager) (toRead toWaitFor : List Nat)
    (v : Int) :
    ∃ l : List Nat,
      l.Perm (toWaitFor.filter
        (fun c => decide (m.visitIdOf c = v) && ! m.usableOf c))
      ∧ (m.checkForOwnership toRead toWaitFor v).2.2.1 = toRead ++ l
      ∧ (m.checkForOwnership toRead toWaitFor v).2.1
          = l.foldl SubManager.clearChunk m
      ∧ (m.checkForOwnership toRead toWaitFor v).2.2.2.Perm
          (toWaitFor.filter (fun c => ! decide (m.visitIdOf c = v)))
      ∧ ((m.checkForOwnership toRead toWaitFor v).1 = true
          ↔ (m.checkForOwnership toRead toWaitFor v).2.2.2 = []) := by
  obtain ⟨l, h1, h2, h3, h4⟩ := checkLoop_spec v (2 * toWaitFor.length + 1)
    m toRead toWaitFor 0 (by omega)
  rw [List.drop_zero] at h1
  rw [List.take_zero, List.drop_zero, List.nil_append] at h4
  rw [SubManager.checkForOwnership]
  dsimp only
  exact ⟨l, h1, h2, h3, h4, List.isEmpty_iff⟩

end LsstAp
